import Mathlib

/-!
Verification development for the Multi-Agent Financial Analyst repository.

Python strings are modelled as lists of characters (`PyStr`); Python dicts
whose keys are load-bearing (chunk metadata) are modelled as association
lists keyed by `PyStr`; fallible operations are modelled with `Except`;
external services (LLM completion, embedding HTTP calls, the Chroma vector
store, `uuid.uuid4`, `json.loads`) are modelled as explicit parameters
carrying their outcome, since the core code treats them as black boxes.
-/

namespace FAB

/-- Python strings as lists of characters. -/
abbrev PyStr := List Char

/-- Coerce a Lean string literal to a modelled Python string. -/
def str (s : String) : PyStr := s.data

/-- Python's default `str.strip()` whitespace set (ASCII part). -/
def isPyWS (c : Char) : Bool :=
  c = ' ' || c = '\t' || c = '\n' || c = '\r' || c = '\x0b' || c = '\x0c'

/-- Python `s.strip()`: drop leading and trailing whitespace. -/
def pyStrip (s : PyStr) : PyStr :=
  ((s.dropWhile isPyWS).reverse.dropWhile isPyWS).reverse

/-- Index of the first occurrence of `needle` in `hay` (Python `hay.find(needle)`),
`none` when absent. -/
def findSub (needle : PyStr) : PyStr → Option Nat
  | [] => if needle = [] then some 0 else none
  | c :: t =>
    if needle.isPrefixOf (c :: t) then some 0
    else (findSub needle t).map (· + 1)

/-- Python `needle in hay` for strings. -/
def pyIn (needle hay : PyStr) : Bool := (findSub needle hay).isSome

/-- Python `s.split(sep)` for a non-empty separator, via fuel recursion
(fuel `s.length + 1` always suffices since each step consumes at least
one character). -/
def splitOnSubAux (sep : PyStr) : Nat → PyStr → List PyStr
  | 0, s => [s]
  | fuel + 1, s =>
    match findSub sep s with
    | none => [s]
    | some i => s.take i :: splitOnSubAux sep fuel (s.drop (i + sep.length))

/-- Python `s.split(sep)` for a non-empty separator. -/
def splitOnSub (sep s : PyStr) : List PyStr := splitOnSubAux sep (s.length + 1) s

/-- Python `s.upper()` (ASCII). -/
def pyUpper (s : PyStr) : PyStr := s.map Char.toUpper

/-- Python `int(s)` on a digit string. -/
def pyStrToNat (d : PyStr) : Nat :=
  d.foldl (fun a c => a * 10 + (c.toNat - '0'.toNat)) 0

/-- Python `s.replace(old, new)` (all non-overlapping occurrences, left to
right), via fuel recursion. -/
def pyReplaceAux (old new : PyStr) : Nat → PyStr → PyStr
  | 0, s => s
  | fuel + 1, s =>
    match findSub old s with
    | none => s
    | some i =>
      s.take i ++ new ++ pyReplaceAux old new fuel (s.drop (i + old.length))

/-- Python `s.replace(old, new)` for non-empty `old`. -/
def pyReplace (s old new : PyStr) : PyStr :=
  pyReplaceAux old new (s.length + 1) s

/-- A string is "stripped" when its first and last characters (when they
exist) are non-whitespace. -/
def Stripped (s : PyStr) : Prop :=
  (∀ c, s.head? = some c → isPyWS c = false) ∧
  (∀ c, s.getLast? = some c → isPyWS c = false)

/-- No occurrence of `sep` anywhere in `s`. -/
def NoOcc (sep s : PyStr) : Prop := ∀ j, ¬ sep <+: s.drop j

/-!
Embedding of `src/Document_processor/Chunker.py` (`FABDocumentChunker`).

The regular expressions of the source are embedded as deterministic
scanners with the exact leftmost / greedy / lazy semantics of the Python
patterns (argued case by case in the doc comments).
-/

/-- Metadata values are strings or integers (the only value shapes the
chunker stores). -/
inductive MVal where
  | s (v : PyStr)
  | n (v : Nat)
deriving DecidableEq, Repr

/-- Section record produced by `extract_sections_with_pages`. -/
structure FABSection where
  section_name : PyStr
  page_number : Nat
  content : PyStr
deriving DecidableEq, Repr

/-- Document-level metadata dict: `document_type` and `filename` are
accessed with `[]` (required); `quarter`, `year`, `fiscal_period` with
`.get(key, 'unknown')` (optional). -/
structure DocMeta where
  document_type : PyStr
  filename : PyStr
  quarter : Option PyStr
  year : Option PyStr
  fiscal_period : Option PyStr
deriving DecidableEq, Repr

/-- A chunk dict as built by `_create_chunk_dict`: the metadata dict is an
association list so that the stored *key names* are part of the model.
`uuid.uuid4()` is external randomness, modelled by an injected id. -/
structure Chunk where
  id : PyStr
  content : PyStr
  metadata : List (PyStr × MVal)
deriving DecidableEq, Repr

/-- Python dict key access `metadata[k]` / `metadata.get(k)`. -/
def mlookup (k : PyStr) (m : List (PyStr × MVal)) : Option MVal :=
  List.lookup k m

/-- Embedding of `_create_chunk_dict`: field names and order as in the
source (note the counter is stored under the key `chunk_id`). -/
def createChunkDict (uuid : PyStr) (content : PyStr) (sec : FABSection)
    (dm : DocMeta) (chunk_id : Nat) (content_type : PyStr) : Chunk :=
  { id := uuid
    content := content
    metadata :=
      [ (str "document_type", .s dm.document_type)
      , (str "filename", .s dm.filename)
      , (str "quarter", .s (dm.quarter.getD (str "unknown")))
      , (str "year", .s (dm.year.getD (str "unknown")))
      , (str "fiscal_period", .s (dm.fiscal_period.getD (str "unknown")))
      , (str "section_name", .s sec.section_name)
      , (str "page_number", .n sec.page_number)
      , (str "chunk_id", .n chunk_id)
      , (str "content_type", .s content_type)
      , (str "full_section", .s sec.section_name)
      , (str "source_document", .s dm.filename)
      , (str "embedding_model", .s (str "embeddinggemma")) ] }

/-- Match one line of the pattern piece `\|.*?\|\n` at the start of `s`
(no DOTALL, so `.` excludes the newline): the line must start with `'|'`,
its first newline must exist at index `j ≥ 2`, and the character before
that newline must be `'|'`; the lazy `.*?` then necessarily stops at that
first newline, so the match is exactly `s.take (j+1)`. -/
def pipeLine (s : PyStr) : Option (PyStr × PyStr) :=
  match findSub (str "\n") s with
  | none => none
  | some j =>
    if (str "|").isPrefixOf s ∧ 2 ≤ j ∧ (s.drop (j - 1)).take 1 = str "|"
    then some (s.take (j + 1), s.drop (j + 1))
    else none

/-- Greedy `(?:\|.*?\|\n)*`: consume as many pipe lines as possible
(nothing follows the star in the pattern, so greedy = maximal). -/
def tableLinesAux : Nat → PyStr → PyStr × PyStr
  | 0, s => ([], s)
  | fuel + 1, s =>
    match pipeLine s with
    | none => ([], s)
    | some (line, rest) =>
      let (more, r) := tableLinesAux fuel rest
      (line ++ more, r)

/-- Match the table pattern `(\|.*?\|\n\|.*?\|\n(?:\|.*?\|\n)*)` at the
start of `s`: two mandatory pipe lines, then greedily more. -/
def tableMatch (s : PyStr) : Option (PyStr × PyStr) :=
  match pipeLine s with
  | none => none
  | some (l1, r1) =>
    match pipeLine r1 with
    | none => none
    | some (l2, r2) =>
      let (more, rest) := tableLinesAux r2.length r2
      some (l1 ++ l2 ++ more, rest)

/-- Embedding of `re.split(table_split_pattern, content)`: scan left to
right; at each position try the table pattern; on a match, emit the text
seen so far and the captured match, then resume after it. The accumulated
text prefix is kept reversed for efficiency. -/
def tableSplitAux : Nat → PyStr → PyStr → List PyStr
  | 0, pre, s => [pre.reverse ++ s]
  | fuel + 1, pre, s =>
    match tableMatch s with
    | some (m, rest) => pre.reverse :: m :: tableSplitAux fuel [] rest
    | none =>
      match s with
      | [] => [pre.reverse]
      | c :: t => tableSplitAux fuel (c :: pre) t

/-- `re.split` with the table pattern, as used by `chunk_section_content`. -/
def tableSplit (s : PyStr) : List PyStr := tableSplitAux (s.length + 1) [] s

/-- Python `part.strip().startswith('|') and '---' in part`. -/
def isTablePart (part : PyStr) : Bool :=
  (str "|").isPrefixOf (pyStrip part) && pyIn (str "---") part

/-- Loop state of `chunk_section_content`: produced chunks, the running
text buffer `current_chunk`, and the `chunk_id` counter. -/
structure ChunkAcc where
  chunks : List Chunk
  current : PyStr
  chunkId : Nat
deriving Repr

/-- The flush idiom of `chunk_section_content`:
`chunks.append(_create_chunk_dict(current_chunk.strip(), ...)); chunk_id += 1;
current_chunk = ""`. -/
def flushText (uuids : Nat → PyStr) (sec : FABSection) (dm : DocMeta)
    (acc : ChunkAcc) : ChunkAcc :=
  { chunks := acc.chunks ++
      [createChunkDict (uuids acc.chunkId) (pyStrip acc.current) sec dm
        acc.chunkId (str "text")]
    current := []
    chunkId := acc.chunkId + 1 }

/-- Body of the inner paragraph loop of `chunk_section_content`. -/
def stepParagraph (uuids : Nat → PyStr) (sec : FABSection) (dm : DocMeta)
    (acc : ChunkAcc) (p : PyStr) : ChunkAcc :=
  let acc1 :=
    if 1500 < acc.current.length + p.length ∧ acc.current ≠ []
    then flushText uuids sec dm acc
    else acc
  { acc1 with current := acc1.current ++ p ++ str "\n\n" }

/-- Body of the outer `for part in parts` loop of `chunk_section_content`. -/
def stepPart (uuids : Nat → PyStr) (sec : FABSection) (dm : DocMeta)
    (acc : ChunkAcc) (part : PyStr) : ChunkAcc :=
  if pyStrip part = [] then acc
  else if isTablePart part then
    let acc1 :=
      if pyStrip acc.current ≠ [] then flushText uuids sec dm acc else acc
    { acc1 with
      chunks := acc1.chunks ++
        [createChunkDict (uuids acc1.chunkId) (pyStrip part) sec dm
          acc1.chunkId (str "table")]
      chunkId := acc1.chunkId + 1 }
  else
    let paragraphs :=
      ((splitOnSub (str "\n\n") part).map pyStrip).filter (· ≠ [])
    paragraphs.foldl (stepParagraph uuids sec dm) acc

/-- Embedding of `FABDocumentChunker.chunk_section_content`. -/
def chunkSectionContent (uuids : Nat → PyStr) (sec : FABSection)
    (dm : DocMeta) : List Chunk :=
  let parts := tableSplit sec.content
  let acc := parts.foldl (stepPart uuids sec dm) ⟨[], [], 0⟩
  if pyStrip acc.current ≠ [] then (flushText uuids sec dm acc).chunks
  else acc.chunks

/-!
Embedding of `extract_sections_with_pages`, whose pattern is
`#Section\s+([^\n]+)\s+#Page\s+(\d+)(.*?)(?=\n#Section|\Z)` with
`re.DOTALL` under `re.findall`. The scanner below reproduces
leftmost-greedy-with-backtracking semantics: the two `\s+` after literals
and the `\d+` never need to backtrack (their maximal runs are followed by
non-whitespace / arbitrary-match positions), while the `\s+` after
`#Section` and the greedy name group `([^\n]+)` genuinely backtrack, so
both are searched longest-first. The lazy tail `(.*?)(?=\n#Section|\Z)`
matches up to the first occurrence of `"\n#Section"` or to end of input. -/

/-- Python `\d` (ASCII). -/
def pyIsDigit (c : Char) : Bool := '0' ≤ c && c ≤ '9'

/-- Length of the maximal whitespace run at the head of `s`. -/
def wsRun (s : PyStr) : Nat := (s.takeWhile isPyWS).length

/-- Match `\s+#Page\s+(\d+)` at the start of `s`; returns the digits group
and the rest. Deterministic: a maximal `\s+` run is always followed by a
non-whitespace character, and `#` and digits are non-whitespace, so a
shorter run can never succeed where the maximal one fails; and nothing
after `\d+` constrains it, so maximal digits are final. -/
def matchPagePart (s : PyStr) : Option (PyStr × PyStr) :=
  let w := wsRun s
  if w = 0 then none else
  let s1 := s.drop w
  if (str "#Page").isPrefixOf s1 then
    let s2 := s1.drop 5
    let w2 := wsRun s2
    if w2 = 0 then none else
    let s3 := s2.drop w2
    let d := s3.takeWhile pyIsDigit
    if d = [] then none else some (d, s3.drop d.length)
  else none

/-- The lazy content group `(.*?)(?=\n#Section|\Z)` with DOTALL: content
runs to the first `"\n#Section"` (the lookahead is not consumed) or to end
of input. -/
def matchContent (s : PyStr) : PyStr × PyStr :=
  match findSub (str "\n#Section") s with
  | some i => (s.take i, s.drop i)
  | none => (s, [])

/-- The greedy name group `([^\n]+)` followed by the rest of the pattern,
with backtracking: split points are tried longest-first. Returns
`(name, digits, content, rest-of-input-after-match)`. -/
def matchName (s : PyStr) : Option (PyStr × PyStr × PyStr × PyStr) :=
  let m := (s.takeWhile (fun c => !(c = '\n'))).length
  ((List.range m).reverse.map (· + 1)).findSome? (fun j =>
    (matchPagePart (s.drop j)).map (fun dr =>
      let (content, rest) := matchContent dr.2
      (s.take j, dr.1, content, rest)))

/-- One attempted match of the whole section pattern at the current
position: literal `#Section`, backtracking `\s+` (longest-first), then the
name group and the rest. -/
def matchSectionAt (s : PyStr) : Option (PyStr × PyStr × PyStr × PyStr) :=
  if (str "#Section").isPrefixOf s then
    let s0 := s.drop 8
    let w := wsRun s0
    if w = 0 then none else
    ((List.range w).reverse.map (· + 1)).findSome? (fun k =>
      matchName (s0.drop k))
  else none

/-- `re.findall` scan: try the pattern at each position, resuming after
each (necessarily non-empty) match. -/
def findallSectionsAux : Nat → PyStr → List (PyStr × PyStr × PyStr)
  | 0, _ => []
  | fuel + 1, s =>
    match matchSectionAt s with
    | some (name, digits, content, rest) =>
      (name, digits, content) :: findallSectionsAux fuel rest
    | none =>
      match s with
      | [] => []
      | _ :: t => findallSectionsAux fuel t

def findallSections (s : PyStr) : List (PyStr × PyStr × PyStr) :=
  findallSectionsAux (s.length + 1) s

/-- Embedding of `FABDocumentChunker.extract_sections_with_pages`. -/
def extractSectionsWithPages (content : PyStr) : List FABSection :=
  (findallSections content).filterMap (fun t =>
    let sc := pyStrip t.2.2
    if sc ≠ [] then
      some ⟨pyStrip t.1, pyStrToNat t.2.1, sc⟩
    else none)

/-- The paragraph separator `"\n\n"`. -/
def nnSep : PyStr := str "\n\n"

/-- All paragraphs the chunker derives from a section's content: for each
part of the table split, the stripped, non-empty pieces of the blank-line
split. -/
def sectionParagraphs (content : PyStr) : List PyStr :=
  ((tableSplit content).map (fun part =>
    ((splitOnSub nnSep part).map pyStrip).filter (· ≠ []))).flatten

/-- Statement form of the chunk-size bound: a `text` chunk either fits the
1500-character budget or is one of the section's paragraphs, emitted
whole. -/
def ChunkOK (P : List PyStr) (ch : Chunk) : Prop :=
  mlookup (str "content_type") ch.metadata = some (.s (str "text")) →
    ch.content.length ≤ 1500 ∨ ch.content ∈ P

/-- Invariant of the `current_chunk` buffer: empty, or a non-empty block
of stripped paragraphs joined and terminated by `"\n\n"`, which is only
over budget when it is a single (source) paragraph. -/
def GoodBuf (P : List PyStr) (cur : PyStr) : Prop :=
  cur = [] ∨ ∃ c, cur = c ++ nnSep ∧ Stripped c ∧ c ≠ [] ∧
    (1500 < c.length → c ∈ P)

/-- Combined loop invariant of `chunk_section_content`. -/
structure AccInv (P : List PyStr) (acc : ChunkAcc) : Prop where
  buf : GoodBuf P acc.current
  ok : ∀ ch ∈ acc.chunks, ChunkOK P ch
  count : acc.chunkId = acc.chunks.length
  ids : ∀ i ch, acc.chunks.get? i = some ch →
    mlookup (str "chunk_id") ch.metadata = some (.n i)

/-!
Embedding of the ChunkStore boundary (`search_chunks`,
`process_document_for_storage`) and the Ollama embedding client. The
external Chroma calls (`collection.query`, `collection.add`) and the HTTP
embedding call are modelled as explicit outcome parameters; `Except.error`
models the call raising.
-/

/-- A formatted search result row. Chroma's column-wise query payload
(`documents[0][i]`, `metadatas[0][i]`, `distances[0][i]`, `ids[0][i]`) is
modelled row-wise, already aligned, so the formatting loop of
`search_chunks` is the identity on rows. The distance type `δ` is kept
abstract (floats are external data never computed on by the core). -/
structure SearchResult (δ : Type) where
  content : PyStr
  metadata : List (PyStr × MVal)
  distance : Option δ
  id : PyStr
deriving DecidableEq, Repr

/-- The `where` clause `search_chunks` builds: the filter dict itself for
one filter, `{"$and": [...]}` for several. -/
inductive WhereClause where
  | direct (fs : List (PyStr × MVal))
  | conj (fs : List (PyStr × MVal))
deriving DecidableEq, Repr

/-- Filter-to-where translation of `search_chunks` (`None`/empty dict ⇒ no
clause; one entry ⇒ the dict itself; several ⇒ `$and` of singletons). -/
def buildWhere (filters : Option (List (PyStr × MVal))) : Option WhereClause :=
  match filters with
  | none => none
  | some fs =>
    if fs.length = 0 then none
    else if fs.length = 1 then some (.direct fs)
    else some (.conj fs)

/-- Embedding of `FABDocumentChunker.search_chunks`: builds the where
clause, runs the external query (`query_fn`; `.error` = the call raises),
and formats the rows; the `except` branch prints and returns `[]`. -/
def searchChunks {δ : Type}
    (query_fn : PyStr → Nat → Option WhereClause → Except PyStr (List (SearchResult δ)))
    (query : PyStr) (filters : Option (List (PyStr × MVal)))
    (n_results : Nat) : List (SearchResult δ) :=
  let where_clause := buildWhere filters
  match query_fn query n_results where_clause with
  | .error _ => []
  | .ok rows => rows

/-- Input record of `process_document_for_storage`. -/
structure ProcessedDoc where
  content : PyStr
  metadata : DocMeta
  document_type : PyStr

/-- Embedding of `FABDocumentChunker.process_document_for_storage`:
extract sections, chunk them, and hand documents/metadatas/ids to the
external `collection.add` (`add_fn`; `.error` = the call raises). The
`except` branch prints and re-raises, so an `add_fn` error propagates;
the no-section / no-chunk warnings return `.ok 0`. -/
def processDocumentForStorage (uuids : Nat → PyStr)
    (add_fn : List PyStr → List (List (PyStr × MVal)) → List PyStr →
      Except PyStr Unit)
    (doc : ProcessedDoc) : Except PyStr Nat :=
  let sections := extractSectionsWithPages doc.content
  if sections = [] then .ok 0
  else
    let all_chunks := (sections.map
      (fun sec => chunkSectionContent uuids sec doc.metadata)).flatten
    if all_chunks = [] then .ok 0
    else
      let documents := all_chunks.map (·.content)
      let metadatas := all_chunks.map (·.metadata)
      let ids := all_chunks.map (·.id)
      match add_fn documents metadatas ids with
      | .error e => .error e
      | .ok _ => .ok documents.length

/-- Embedding of `OllamaEmbeddingClient.get_embedding`: the HTTP call is
an outcome parameter; on any exception the client prints and returns a
768-dimensional zero vector (it never propagates the error). Vector
entries are abstract (`ε`), with a designated zero element. -/
def getEmbedding {ε : Type} (zero : ε)
    (http : Except PyStr (List ε)) : List ε :=
  match http with
  | .ok v => v
  | .error _ => List.replicate 768 zero

/-!
Embedding of `OrchestratorAgent` (`create_plan`, `should_continue`) from
`src/agents/orchestrator_agent.py`.
-/

/-- The `re.search(r'\[.*\]', text, re.DOTALL)` span: the match starts at
the first `'['` that has a `']'` somewhere after it, and the greedy `.*`
(DOTALL) extends to the last `']'` of the whole text. -/
def bracketSpan (s : PyStr) : Option PyStr :=
  match s.findIdx? (fun c => c = '[') with
  | none => none
  | some i =>
    match s.reverse.findIdx? (fun c => c = ']') with
    | none => none
    | some rj =>
      let j := s.length - 1 - rj
      if i < j then some ((s.take (j + 1)).drop i) else none

/-- The newline fallback of `create_plan`:
`[step.strip() for step in plan_text.split('\n') if step.strip()]`. -/
def cleanLines (text : PyStr) : List PyStr :=
  ((splitOnSub (str "\n") text).map pyStrip).filter (· ≠ [])

/-- The hard-coded fallback plan of `create_plan`. -/
def fallbackPlan : List PyStr :=
  [str "RETRIEVE: General information about the query"]

/-- Embedding of `OrchestratorAgent.create_plan`. `llm` is the outcome of
`chain.invoke` (`.error` = the call raises); `jsonLoads` models
`json.loads` on the matched span (`none` = it raises; both exceptions land
in the same `except`, which returns the fallback plan). A parsed JSON
array's elements are taken as (string-rendered) steps. -/
def createPlan (jsonLoads : PyStr → Option (List PyStr))
    (llm : Except PyStr PyStr) : List PyStr :=
  match llm with
  | .error _ => fallbackPlan
  | .ok plan_text =>
    match bracketSpan plan_text with
    | some span =>
      match jsonLoads span with
      | none => fallbackPlan
      | some plan => if plan = [] then fallbackPlan else plan
    | none =>
      let plan := cleanLines plan_text
      if plan = [] then fallbackPlan else plan

/-!
Embedding of `RetrievalAgent.execute_retrieval` from
`src/agents/retrieval_agent.py`.
-/

/-- The parsed JSON response of the retrieval prompt; `none` fields model
missing keys (the code reads them with `.get` defaults). -/
structure RetrievalResponse where
  search_queries : Option (List PyStr)
  filters : Option (List (PyStr × MVal))

/-- Deduplication by `hash(result['content'][:100])`, keeping the first
occurrence of each fingerprint; the model uses the 100-character prefix
itself as the fingerprint (Python's `hash` is deterministic per run and
collides only accidentally). -/
def dedupByPrefix {δ : Type} (rs : List (SearchResult δ)) :
    List (SearchResult δ) :=
  (rs.foldl (fun (st : List (SearchResult δ) × List PyStr) r =>
    let fp := r.content.take 100
    if fp ∈ st.2 then st else (st.1 ++ [r], st.2 ++ [fp])) ([], [])).1

/-- Embedding of `RetrievalAgent.execute_retrieval`. `search_fn` is the
chunker's `search_chunks` (query, filters, n_results); `llm_parse` is the
combined outcome of `chain.invoke` plus `json.loads` on its response
(`.error` = either raises, landing in the `except` that runs the
fallback `search_chunks(query=query, n_results=5)`). -/
def executeRetrieval {δ : Type}
    (search_fn : PyStr → Option (List (PyStr × MVal)) → Nat →
      List (SearchResult δ))
    (llm_parse : Except PyStr RetrievalResponse)
    (query : PyStr) (current_step : PyStr) : List (SearchResult δ) :=
  match llm_parse with
  | .error _ => search_fn query none 5
  | .ok resp =>
    let search_queries := resp.search_queries.getD [query]
    let filters := resp.filters.getD []
    let first_pass := (search_queries.map (fun q =>
      search_fn q (if filters ≠ [] then some filters else none) 5)).flatten
    let all_results :=
      if first_pass.length = 0 ∧ filters ≠ [] then
        (search_queries.map (fun q => search_fn q none 5)).flatten
      else first_pass
    dedupByPrefix all_results

/-!
Embedding of `CalculationAgent` from `src/agents/calculation_agent.py`.
`numexpr.evaluate` is modelled by a small arithmetic evaluator over
`+ - * / ( )` and numeric literals; any identifier left in the expression
is an undefined variable and evaluates to an error, mirroring numexpr's
`NameError`/`KeyError` on unbound names. Numeric values are modelled as
rationals (IEEE-float rounding is outside the scope of the claims). -/

/-- Tokens of the restricted arithmetic language. -/
inductive Tok where
  | num (v : ℚ)
  | ident (name : PyStr)
  | op (c : Char)
  | lparen
  | rparen
deriving DecidableEq, Repr

def isIdentStart (c : Char) : Bool := c.isAlpha || c = '_'

def isIdentChar (c : Char) : Bool := c.isAlphanum || c = '_'

def digitsVal (d : PyStr) : Nat :=
  d.foldl (fun a c => a * 10 + (c.toNat - '0'.toNat)) 0

/-- Tokenizer (fuel-recursive; fuel `s.length + 1` suffices). Unknown
characters are lexical errors. -/
def tokenizeAux : Nat → PyStr → Except PyStr (List Tok)
  | 0, _ => .error (str "tokenizer out of fuel")
  | _ + 1, [] => .ok []
  | fuel + 1, c :: rest =>
    if c = ' ' ∨ c = '\t' then tokenizeAux fuel rest
    else if c = '(' then (tokenizeAux fuel rest).map (Tok.lparen :: ·)
    else if c = ')' then (tokenizeAux fuel rest).map (Tok.rparen :: ·)
    else if c = '+' ∨ c = '-' ∨ c = '*' ∨ c = '/' then
      (tokenizeAux fuel rest).map (Tok.op c :: ·)
    else if pyIsDigit c then
      let intPart := (c :: rest).takeWhile pyIsDigit
      let afterInt := (c :: rest).drop intPart.length
      match afterInt with
      | '.' :: frac =>
        let fracPart := frac.takeWhile pyIsDigit
        let afterFrac := frac.drop fracPart.length
        let v : ℚ := (digitsVal intPart : ℚ) +
          (digitsVal fracPart : ℚ) / ((10 : ℚ) ^ fracPart.length)
        (tokenizeAux fuel afterFrac).map (Tok.num v :: ·)
      | _ =>
        (tokenizeAux fuel afterInt).map (Tok.num (digitsVal intPart : ℚ) :: ·)
    else if isIdentStart c then
      let name := (c :: rest).takeWhile isIdentChar
      let after := (c :: rest).drop name.length
      (tokenizeAux fuel after).map (Tok.ident name :: ·)
    else .error (str "unexpected character")

def tokenize (s : PyStr) : Except PyStr (List Tok) :=
  tokenizeAux (s.length + 1) s

/-- Names of the variables an expression references, per the tokenizer. -/
def referencedIdents (s : PyStr) : List PyStr :=
  match tokenize s with
  | .error _ => []
  | .ok toks => toks.filterMap (fun t =>
      match t with
      | .ident n => some n
      | _ => none)

/-- Atom parser: number, parenthesised expression, or unary `+`/`-`; a
bare identifier is an unbound variable and errors. `parseAddSub` is passed
in to break the mutual recursion; all levels are fuelled. -/
def parseAtom (pAdd : List Tok → Except PyStr (ℚ × List Tok)) :
    List Tok → Except PyStr (ℚ × List Tok)
  | [] => .error (str "unexpected end of expression")
  | Tok.num v :: rest => .ok (v, rest)
  | Tok.ident n :: _ => .error (str "name " ++ n ++ str " is not defined")
  | Tok.lparen :: rest =>
    match pAdd rest with
    | .error e => .error e
    | .ok (v, rest2) =>
      match rest2 with
      | Tok.rparen :: rest3 => .ok (v, rest3)
      | _ => .error (str "expected closing parenthesis")
  | Tok.op c :: rest =>
    if c = '-' then (parseAtom pAdd rest).map (fun vr => (-vr.1, vr.2))
    else if c = '+' then parseAtom pAdd rest
    else .error (str "unexpected operator")
  | _ => .error (str "unexpected token")

def parseMulDivLoop (pAdd : List Tok → Except PyStr (ℚ × List Tok)) :
    Nat → ℚ → List Tok → Except PyStr (ℚ × List Tok)
  | 0, _, _ => .error (str "parser out of fuel")
  | fuel + 1, acc, toks =>
    match toks with
    | Tok.op c :: rest =>
      if c = '*' ∨ c = '/' then
        match parseAtom pAdd rest with
        | .error e => .error e
        | .ok (v, rest2) =>
          parseMulDivLoop pAdd fuel (if c = '*' then acc * v else acc / v) rest2
      else .ok (acc, toks)
    | _ => .ok (acc, toks)

def parseMulDiv (pAdd : List Tok → Except PyStr (ℚ × List Tok))
    (toks : List Tok) : Except PyStr (ℚ × List Tok) :=
  match parseAtom pAdd toks with
  | .error e => .error e
  | .ok (v, rest) => parseMulDivLoop pAdd (rest.length + 1) v rest

def parseAddSubLoop (pAdd : List Tok → Except PyStr (ℚ × List Tok)) :
    Nat → ℚ → List Tok → Except PyStr (ℚ × List Tok)
  | 0, _, _ => .error (str "parser out of fuel")
  | fuel + 1, acc, toks =>
    match toks with
    | Tok.op c :: rest =>
      if c = '+' ∨ c = '-' then
        match parseMulDiv pAdd rest with
        | .error e => .error e
        | .ok (v, rest2) =>
          parseAddSubLoop pAdd fuel (if c = '+' then acc + v else acc - v) rest2
      else .ok (acc, toks)
    | _ => .ok (acc, toks)

/-- Top-level expression parser at a given recursion depth (depth bounds
nesting of parentheses and unary operators). -/
def parseAddSub : Nat → List Tok → Except PyStr (ℚ × List Tok)
  | 0, _ => .error (str "parser out of fuel")
  | depth + 1, toks =>
    match parseMulDiv (parseAddSub depth) toks with
    | .error e => .error e
    | .ok (v, rest) => parseAddSubLoop (parseAddSub depth) (rest.length + 1) v rest

/-- Model of `numexpr.evaluate(expression).item()`: tokenize, parse, and
require the whole token stream to be consumed. -/
def numexprEvaluate (s : PyStr) : Except PyStr ℚ :=
  match tokenize s with
  | .error e => .error e
  | .ok toks =>
    match parseAddSub (toks.length + 1) toks with
    | .error e => .error e
    | .ok (v, []) => .ok v
    | .ok (_, _ :: _) => .error (str "unexpected trailing tokens")

/-- The parsed JSON of the calculation prompt response; fields are read
with `.get` defaults, and `input_values` entries carry the textual
rendering Python's `str(value)` produces for each (arbitrary JSON)
value. -/
structure CalcResponse where
  formula_used : Option PyStr
  input_values : Option (List (PyStr × PyStr))
deriving DecidableEq, Repr

/-- The fields `_validate_and_execute_calculation` adds to (or leaves on)
the response dict. -/
structure CalcOutcome where
  base : CalcResponse
  validated_result : Option ℚ
  execution_success : Bool
  execution_error : Option PyStr
deriving DecidableEq, Repr

/-- The variable substitution loop:
`expression = expression.replace(var_name, str(value))` over
`input_values.items()` in insertion order. -/
def substituteFormula (formula : PyStr)
    (input_values : List (PyStr × PyStr)) : PyStr :=
  input_values.foldl (fun e kv => pyReplace e kv.1 kv.2) formula

/-- Embedding of `CalculationAgent._validate_and_execute_calculation`:
substitute, evaluate, and convert any evaluation error into
`execution_success = False` with the captured message — the function
itself never raises. -/
def validateAndExecuteCalculation (cr : CalcResponse) : CalcOutcome :=
  let formula := cr.formula_used.getD []
  let input_values := cr.input_values.getD []
  let expression := substituteFormula formula input_values
  match numexprEvaluate expression with
  | .ok v =>
    { base := cr, validated_result := some v, execution_success := true,
      execution_error := none }
  | .error e =>
    { base := cr, validated_result := none, execution_success := false,
      execution_error := some e }

/-- Return value of `perform_calculation`: either the validated outcome
dict, or the degraded error dict
`{"calculation_type": "error", "result": None, "error": e, "units": "unknown"}`
produced by the outer `except`. -/
inductive CalcReturn where
  | result (out : CalcOutcome)
  | errorDict (e : PyStr)
deriving DecidableEq, Repr

/-- Embedding of `CalculationAgent.perform_calculation`. `calc_parse`
bundles the outcomes of the fallible steps inside the `try` block — the
metric-extraction call (which swallows its own errors and only shapes the
prompt), `chain.invoke`, and `json.loads` — as the parsed response or the
first raised error; the outer `except` converts any error into the
degraded dict, so the function never raises. -/
def performCalculation (calc_parse : Except PyStr CalcResponse) : CalcReturn :=
  match calc_parse with
  | .error e => .errorDict e
  | .ok cr => .result (validateAndExecuteCalculation cr)

/-!
Embedding of `FABWorkflow` (`src/agents/workflow.py`) and the LangGraph
state machine. Node payloads produced by the specialist agents depend on
LLM calls and are abstracted as oracle functions over the visible state;
`ρ` is the element type of retrieval results, `κ` a calculation result,
`σ` a synthesized answer, `ν` a validation verdict. LangGraph merges the
partial dict a node returns into the state; the node embeddings return the
merged state directly.
-/

/-- Items appended to `state['context']` (a tagged union with the
originating step text and an append-index timestamp). -/
inductive CtxItem (ρ κ σ ν : Type) where
  | retrievalResult (step : PyStr) (results : List ρ) (timestamp : Nat)
  | calculationResult (step : PyStr) (result : κ) (timestamp : Nat)
  | finalSynthesis (answer : σ) (validation : ν) (timestamp : Nat)
deriving DecidableEq, Repr

def CtxItem.timestamp {ρ κ σ ν : Type} : CtxItem ρ κ σ ν → Nat
  | .retrievalResult _ _ t => t
  | .calculationResult _ _ t => t
  | .finalSynthesis _ _ t => t

/-- Entries of `state['retrieval_history']`. -/
structure HistItem where
  step : Nat
  query : PyStr
  results_count : Nat
  timestamp : Nat
deriving DecidableEq, Repr

/-- The `AgentState` TypedDict of `agent_definitions.py` (the unused
`metadata` key is omitted; `validation` is the key the synthesis node
adds). `calculation_results` is a dict keyed by `"step_<n>"`. -/
structure WState (ρ κ σ ν : Type) where
  query : PyStr
  plan : List PyStr
  context : List (CtxItem ρ κ σ ν)
  current_step : Nat
  final_answer : Option σ
  validation : Option ν
  retrieval_history : List HistItem
  calculation_results : List (PyStr × κ)
deriving DecidableEq, Repr

/-- Python dict assignment `d[k] = v` on an insertion-ordered dict. -/
def dictInsert {κ : Type} (k : PyStr) (v : κ) (d : List (PyStr × κ)) :
    List (PyStr × κ) :=
  if (List.lookup k d).isSome then
    d.map (fun kv => if kv.1 = k then (k, v) else kv)
  else d ++ [(k, v)]

/-- The external/LLM-driven behaviour of the specialist agents, abstracted
over what each node actually reads from the state. -/
structure Oracles (ρ κ σ ν : Type) where
  create_plan : PyStr → List PyStr
  execute_retrieval : PyStr → PyStr → List (CtxItem ρ κ σ ν) → List ρ
  perform_calculation : PyStr → List (CtxItem ρ κ σ ν) → κ
  synthesize_answer : PyStr → List (CtxItem ρ κ σ ν) → List (PyStr × κ) → σ
  validate_answer : σ → List (CtxItem ρ κ σ ν) → ν

/-- The LangGraph node names plus the terminal `END`. -/
inductive Node where
  | orchestrator
  | retrieval
  | calculation
  | synthesis
  | finish
deriving DecidableEq, Repr

/-- Embedding of `FABWorkflow._orchestrator_node`: on first entry (falsy
`plan`) create the plan and initialise the counters; on re-entry increment
`current_step`. -/
def orchestratorNode {ρ κ σ ν : Type} (o : Oracles ρ κ σ ν)
    (s : WState ρ κ σ ν) : WState ρ κ σ ν :=
  if s.plan = [] then
    { s with
      plan := o.create_plan s.query
      current_step := 0
      context := []
      retrieval_history := []
      calculation_results := [] }
  else
    { s with current_step := s.current_step + 1 }

/-- The step text read by the execution nodes:
`plan[current_step] if current_step < len(plan) else ""`. -/
def currentStepText {ρ κ σ ν : Type} (s : WState ρ κ σ ν) : PyStr :=
  if s.current_step < s.plan.length then s.plan.getD s.current_step []
  else []

/-- Embedding of `FABWorkflow._retrieval_node` (the success path; an
exception from `execute_retrieval` would propagate, but the embedded
retrieval pipeline is total). -/
def retrievalNode {ρ κ σ ν : Type} (o : Oracles ρ κ σ ν)
    (s : WState ρ κ σ ν) : WState ρ κ σ ν :=
  let step_text := currentStepText s
  let results := o.execute_retrieval s.query step_text s.context
  { s with
    context := s.context ++
      [.retrievalResult step_text results s.context.length],
    retrieval_history := s.retrieval_history ++
      [⟨s.current_step, step_text, results.length,
        s.retrieval_history.length⟩] }

/-- Embedding of `FABWorkflow._calculation_node` (success path). -/
def calculationNode {ρ κ σ ν : Type} (o : Oracles ρ κ σ ν)
    (s : WState ρ κ σ ν) : WState ρ κ σ ν :=
  let step_text := currentStepText s
  let result := o.perform_calculation step_text s.context
  { s with
    context := s.context ++
      [.calculationResult step_text result s.context.length],
    calculation_results := dictInsert
      (str "step_" ++ Nat.toDigits 10 s.current_step)
      result s.calculation_results }

/-- Embedding of `FABWorkflow._synthesis_node` (success path). -/
def synthesisNode {ρ κ σ ν : Type} (o : Oracles ρ κ σ ν)
    (s : WState ρ κ σ ν) : WState ρ κ σ ν :=
  let final_answer := o.synthesize_answer s.query s.context
    s.calculation_results
  let validation := o.validate_answer final_answer s.context
  { s with
    final_answer := some final_answer,
    validation := some validation,
    context := s.context ++
      [.finalSynthesis final_answer validation s.context.length] }

/-- Embedding of `OrchestratorAgent.should_continue`, the conditional edge
out of the orchestrator node. -/
def shouldContinue {ρ κ σ ν : Type} (s : WState ρ κ σ ν) : Node :=
  if s.plan.length ≤ s.current_step then .finish
  else
    let next_step := s.plan.getD s.current_step []
    if (str "SYNTHESIZE").isPrefixOf (pyUpper next_step) then .synthesis
    else if (str "CALCULATE").isPrefixOf (pyUpper next_step) then .calculation
    else .retrieval

/-- Embedding of `_should_continue_after_retrieval` and
`_should_continue_after_calculation` (identical bodies). -/
def afterExecRoute {ρ κ σ ν : Type} (s : WState ρ κ σ ν) : Node :=
  if s.plan.length ≤ s.current_step then .finish else .orchestrator

/-- One transition of the compiled LangGraph: run the current node, then
follow its (conditional) edge. `finish` is absorbing. -/
def stepWorkflow {ρ κ σ ν : Type} (o : Oracles ρ κ σ ν) :
    Node × WState ρ κ σ ν → Node × WState ρ κ σ ν
  | (.orchestrator, s) =>
    let s2 := orchestratorNode o s
    (shouldContinue s2, s2)
  | (.retrieval, s) =>
    let s2 := retrievalNode o s
    (afterExecRoute s2, s2)
  | (.calculation, s) =>
    let s2 := calculationNode o s
    (afterExecRoute s2, s2)
  | (.synthesis, s) =>
    let s2 := synthesisNode o s
    (.finish, s2)
  | (.finish, s) => (.finish, s)

/-- The initial state built by `execute_query`. -/
def initState {ρ κ σ ν : Type} (query : PyStr) : WState ρ κ σ ν :=
  { query := query
    plan := []
    context := []
    current_step := 0
    final_answer := none
    validation := none
    retrieval_history := []
    calculation_results := [] }

/-- `n` transitions of the workflow from the entry point. -/
def runWorkflow {ρ κ σ ν : Type} (o : Oracles ρ κ σ ν) (query : PyStr)
    (n : Nat) : Node × WState ρ κ σ ν :=
  (stepWorkflow o)^[n] (Node.orchestrator, initState query)

/-- A plan step is routed to synthesis when its upper-cased text starts
with `SYNTHESIZE`. -/
def isSynthStep (st : PyStr) : Bool :=
  (str "SYNTHESIZE").isPrefixOf (pyUpper st)

/-- Timestamps in a context list equal positions (the append-only
invariant's consequence). -/
def TimestampsOK {ρ κ σ ν : Type} (ctx : List (CtxItem ρ κ σ ν)) : Prop :=
  ∀ i item, ctx.get? i = some item → CtxItem.timestamp item = i

/-- Success of a parser step consumes no identifier token: the input
splits as consumed part plus leftover with no identifier consumed. -/
def NoIdentConsumed (f : List Tok → Except PyStr (ℚ × List Tok)) : Prop :=
  ∀ toks v rest, f toks = .ok (v, rest) →
    ∃ pre, toks = pre ++ rest ∧ ∀ n, Tok.ident n ∉ pre

/-- Trace invariant for the termination proof: after `2*i` transitions
the machine is entering the orchestrator, and after the orchestrator's
`(i+1)`-th processing (`2*i+1` transitions) the plan is in place,
`current_step = i`, `i` context items have been appended, and the next
node is chosen by `should_continue`. -/
def WfTrace {ρ κ σ ν : Type} (o : Oracles ρ κ σ ν) (q : PyStr) (i : Nat) :
    Prop :=
  (runWorkflow o q (2 * i)).1 = Node.orchestrator ∧
  (runWorkflow o q (2 * i + 1)).2.plan = o.create_plan q ∧
  (runWorkflow o q (2 * i + 1)).2.current_step = i ∧
  (runWorkflow o q (2 * i + 1)).2.context.length = i ∧
  (runWorkflow o q (2 * i + 1)).1 =
    shouldContinue (runWorkflow o q (2 * i + 1)).2

/-- Concrete inputs used by the witnesses: a trivial uuid source, document
metadata, a one-paragraph section and the single chunk it produces. -/
def uuidsW : Nat → PyStr := fun _ => []

def dmW : DocMeta :=
  ⟨str "financial_statement", str "fab.pdf", none, none, none⟩

def secW : FABSection := ⟨str "S", 1, str "hello"⟩

def chunkW : Chunk := createChunkDict [] (str "hello") secW dmW 0 (str "text")

/-- Concrete oracles (over `Nat` payloads) used by the workflow
witnesses. -/
def oraclesW : Oracles Nat Nat Nat Nat :=
  { create_plan := fun _ => [str "RETRIEVE: total assets"]
    execute_retrieval := fun _ _ _ => [1]
    perform_calculation := fun _ _ => 2
    synthesize_answer := fun _ _ _ => 3
    validate_answer := fun _ _ => 4 }

/-- The raw input text of the spec's example scenario. -/
def c3input : PyStr :=
  str "#Section Balance Sheet\n#Page 3\nTotal Assets AED 100 million\n\n|A|B|\n|-|-|\n|1|2|\n"

/-- The section the example input extracts to. -/
def c3section : FABSection :=
  ⟨str "Balance Sheet", 3,
    str "Total Assets AED 100 million\n\n|A|B|\n|-|-|\n|1|2|"⟩

/-- The content of the single chunk the example actually produces. -/
def c3chunkContent : PyStr :=
  str "Total Assets AED 100 million\n\n|A|B|\n|-|-|\n\n|1|2|"

/-- A search function that distinguishes the overall query from the
plan-step text, to exhibit which one the fallback of `execute_retrieval`
uses. -/
def searchFnC7 : PyStr → Option (List (PyStr × MVal)) → Nat →
    List (SearchResult Nat) :=
  fun q _ _ =>
    if q = str "overall query" then
      [⟨str "doc found for the overall query", [], none, str "id-q"⟩]
    else
      [⟨str "doc found for the step text", [], none, str "id-s"⟩]

/-! Theorems: string primitives. -/

theorem dropWhile_head?_not (p : Char → Bool) (l : PyStr) :
    ∀ c, (l.dropWhile p).head? = some c → p c = false := by
  induction l with
  | nil => simp
  | cons a t ih =>
    by_cases hc : p a
    · rw [List.dropWhile_cons_of_pos hc]; exact ih
    · rw [List.dropWhile_cons_of_neg hc]
      intro c hcc
      simp only [List.head?_cons, Option.some.injEq] at hcc
      subst hcc
      simpa using hc

theorem dropWhile_append_of_all (p : Char → Bool) (a b : PyStr)
    (h : ∀ c ∈ a, p c = true) : (a ++ b).dropWhile p = b.dropWhile p := by
  induction a with
  | nil => simp
  | cons c t ih =>
    have hc : p c = true := h c (by simp)
    simp only [List.cons_append, List.dropWhile_cons_of_pos hc]
    exact ih (fun x hx => h x (by simp [hx]))

theorem dropWhile_eq_self_of_head? (p : Char → Bool) (l : PyStr)
    (h : ∀ c, l.head? = some c → p c = false) : l.dropWhile p = l := by
  cases l with
  | nil => rfl
  | cons c t => exact List.dropWhile_cons_of_neg (by simp [h c rfl])

theorem stripped_nil : Stripped [] := by constructor <;> simp

theorem stripped_of_pyStrip (s : PyStr) : Stripped (pyStrip s) := by
  unfold pyStrip
  set a := (s.dropWhile isPyWS).reverse.dropWhile isPyWS with ha
  constructor
  · intro c hc
    rw [List.head?_reverse] at hc
    have hane : a ≠ [] := by
      intro hnil; rw [hnil] at hc; simp at hc
    rcases List.dropWhile_suffix (l := (s.dropWhile isPyWS).reverse)
        (p := isPyWS) with ⟨pre, hpre⟩
    rw [← ha] at hpre
    have h2 : ((s.dropWhile isPyWS).reverse).getLast? = some c := by
      rw [← hpre, List.getLast?_append_of_ne_nil pre hane]
      exact hc
    rw [List.getLast?_reverse] at h2
    exact dropWhile_head?_not isPyWS s c h2
  · intro c hc
    rw [List.getLast?_reverse] at hc
    exact dropWhile_head?_not isPyWS _ c hc

theorem pyStrip_eq_self (s : PyStr) (h : Stripped s) : pyStrip s = s := by
  unfold pyStrip
  rw [dropWhile_eq_self_of_head? isPyWS s h.1]
  rw [dropWhile_eq_self_of_head? isPyWS s.reverse
    (fun c hc => h.2 c (by rwa [List.head?_reverse] at hc))]
  exact List.reverse_reverse s

theorem pyStrip_append_ws (s t : PyStr) (h : ∀ c ∈ t, isPyWS c = true) :
    pyStrip (s ++ t) = pyStrip s := by
  unfold pyStrip
  rw [List.dropWhile_append]
  by_cases hs : (s.dropWhile isPyWS).isEmpty
  · have ht : t.dropWhile isPyWS = [] := by
      rw [List.dropWhile_eq_nil_iff]; exact fun c hc => h c hc
    have hs' : s.dropWhile isPyWS = [] := by
      cases hdw : s.dropWhile isPyWS with
      | nil => rfl
      | cons a l => rw [hdw] at hs; simp [List.isEmpty] at hs
    simp [hs, ht, hs']
  · rw [if_neg hs, List.reverse_append]
    rw [dropWhile_append_of_all isPyWS t.reverse _
      (fun c hc => h c (List.mem_reverse.mp hc))]

theorem pyStrip_infix_self (s : PyStr) : pyStrip s <:+: s := by
  have h1 := List.reverse_prefix.mpr
    (List.dropWhile_suffix (l := (s.dropWhile isPyWS).reverse) isPyWS)
  rw [List.reverse_reverse] at h1
  exact (show pyStrip s <+: s.dropWhile isPyWS from h1).isInfix.trans
    (List.dropWhile_suffix isPyWS).isInfix

theorem stripped_append3 (a m b : PyStr) (ha : Stripped a) (hb : Stripped b)
    (hane : a ≠ []) (hbne : b ≠ []) : Stripped (a ++ m ++ b) := by
  constructor
  · intro c hc
    rw [List.append_assoc, List.head?_append_of_ne_nil _ hane] at hc
    exact ha.1 c hc
  · intro c hc
    rw [List.getLast?_append_of_ne_nil _ hbne] at hc
    exact hb.2 c hc

theorem pyStrip_buf (c : PyStr) (h : Stripped c) :
    pyStrip (c ++ nnSep) = c := by
  rw [pyStrip_append_ws c nnSep (by decide)]
  exact pyStrip_eq_self c h

/-! Theorems: substring occurrences and `split`. -/

theorem findSub_eq_none_iff (sep : PyStr) (hne : sep ≠ []) (s : PyStr) :
    findSub sep s = none ↔ NoOcc sep s := by
  induction s with
  | nil =>
    simp only [findSub, if_neg hne]
    constructor
    · intro _ j
      simp only [List.drop_nil, List.prefix_nil]
      exact hne
    · intro _
      trivial
  | cons c t ih =>
    by_cases hp : sep.isPrefixOf (c :: t)
    · simp only [findSub, if_pos hp]
      constructor
      · intro h; simp at h
      · intro h
        exact absurd (List.isPrefixOf_iff_prefix.mp hp) (by simpa using h 0)
    · simp only [findSub, if_neg hp]
      constructor
      · intro h j
        have ht : findSub sep t = none := by
          cases hft : findSub sep t with
          | none => rfl
          | some i => rw [hft] at h; simp at h
        cases j with
        | zero =>
          simp only [List.drop_zero]
          exact fun hpre => hp (List.isPrefixOf_iff_prefix.mpr hpre)
        | succ j' =>
          rw [List.drop_succ_cons]
          exact (ih.mp ht) j'
      · intro h
        have ht : findSub sep t = none :=
          ih.mpr (fun j => by
            have := h (j + 1)
            rwa [List.drop_succ_cons] at this)
        rw [ht]; rfl

theorem findSub_min (sep : PyStr) : ∀ (s : PyStr) (i : Nat),
    findSub sep s = some i →
    sep <+: s.drop i ∧ ∀ j < i, ¬ sep <+: s.drop j := by
  intro s
  induction s with
  | nil =>
    intro i h
    simp only [findSub] at h
    by_cases hsep : sep = ([] : PyStr)
    · rw [if_pos hsep] at h
      cases h
      subst hsep
      exact ⟨List.nil_prefix, by omega⟩
    · rw [if_neg hsep] at h; cases h
  | cons c t ih =>
    intro i h
    by_cases hp : sep.isPrefixOf (c :: t)
    · simp only [findSub, if_pos hp] at h
      cases h
      exact ⟨List.isPrefixOf_iff_prefix.mp hp, by omega⟩
    · simp only [findSub, if_neg hp] at h
      cases hft : findSub sep t with
      | none => rw [hft] at h; cases h
      | some i' =>
        rw [hft] at h
        simp only [Option.map_some', Option.some.injEq] at h
        subst h
        obtain ⟨h1, h2⟩ := ih i' hft
        refine ⟨by rw [List.drop_succ_cons]; exact h1, ?_⟩
        intro j hj
        cases j with
        | zero =>
          simp only [List.drop_zero]
          exact fun hpre => hp (List.isPrefixOf_iff_prefix.mpr hpre)
        | succ j' =>
          rw [List.drop_succ_cons]
          exact h2 j' (by omega)

theorem prefix_drop_of_prefix_drop_take (sep s : PyStr) (i j : Nat)
    (h : sep <+: (s.take i).drop j) : sep <+: s.drop j := by
  have heq : (s.take i).drop j = (s.drop j).take (i - j) := by
    by_cases hij : j ≤ i
    · rw [List.take_drop, Nat.add_sub_cancel' hij]
    · have h1 : (s.take i).drop j = [] :=
        List.drop_eq_nil_of_le
          (le_trans (List.length_take_le i s) (by omega))
      have h2 : (s.drop j).take (i - j) = [] := by
        have hz : i - j = 0 := by omega
        rw [hz, List.take_zero]
      rw [h1, h2]
  rw [heq] at h
  exact h.trans (List.take_prefix _ _)

theorem noOcc_take_of_findSub (sep s : PyStr) (i : Nat) (hne : sep ≠ [])
    (h : findSub sep s = some i) : NoOcc sep (s.take i) := by
  obtain ⟨_, hmin⟩ := findSub_min sep s i h
  intro j hpre
  by_cases hj : j < i
  · exact hmin j hj (prefix_drop_of_prefix_drop_take sep s i j hpre)
  · rw [List.drop_eq_nil_of_le
      (le_trans (List.length_take_le i s) (by omega))] at hpre
    exact hne (List.prefix_nil.mp hpre)

theorem noOcc_mono (sep t s : PyStr) (hne : sep ≠ [])
    (h : NoOcc sep s) (hinf : t <:+: s) : NoOcc sep t := by
  rcases hinf with ⟨u, v, rfl⟩
  intro j hpre
  have hj : j < t.length := by
    by_contra hge
    rw [List.drop_eq_nil_of_le (by omega)] at hpre
    exact hne (List.prefix_nil.mp hpre)
  apply h (u.length + j)
  have hdrop : (u ++ t ++ v).drop (u.length + j) = t.drop j ++ v := by
    rw [List.append_assoc, ← List.drop_drop, List.drop_left]
    have hsplit : t ++ v = t.take j ++ (t.drop j ++ v) := by
      rw [← List.append_assoc, List.take_append_drop]
    rw [hsplit, List.drop_left' (by rw [List.length_take]; omega)]
  rw [hdrop]
  exact hpre.trans (List.prefix_append _ _)

theorem findSub_some_lt (sep s : PyStr) (i : Nat) (hne : sep ≠ [])
    (h : findSub sep s = some i) : i < s.length := by
  obtain ⟨h1, _⟩ := findSub_min sep s i h
  by_contra hge
  rw [List.drop_eq_nil_of_le (by omega)] at h1
  exact hne (List.prefix_nil.mp h1)

theorem splitOnSubAux_no_occ (sep : PyStr) (hne : sep ≠ []) :
    ∀ (fuel : Nat) (s : PyStr), s.length < fuel →
    ∀ piece ∈ splitOnSubAux sep fuel s, NoOcc sep piece := by
  intro fuel
  induction fuel with
  | zero => intro s h; omega
  | succ n ih =>
    intro s hlen piece hmem
    simp only [splitOnSubAux] at hmem
    cases hfs : findSub sep s with
    | none =>
      rw [hfs] at hmem
      simp only [List.mem_singleton] at hmem
      subst hmem
      exact (findSub_eq_none_iff sep hne _).mp hfs
    | some i =>
      rw [hfs] at hmem
      simp only [List.mem_cons] at hmem
      rcases hmem with rfl | hmem
      · exact noOcc_take_of_findSub sep s i hne hfs
      · apply ih (s.drop (i + sep.length)) _ piece hmem
        have hi : i < s.length := findSub_some_lt sep s i hne hfs
        have hsep : 0 < sep.length := List.length_pos.mpr hne
        simp only [List.length_drop]
        omega

theorem mem_splitOnSub_no_occ (sep : PyStr) (hne : sep ≠ []) (s : PyStr) :
    ∀ piece ∈ splitOnSub sep s, NoOcc sep piece := by
  intro piece hmem
  exact splitOnSubAux_no_occ sep hne (s.length + 1) s (by omega) piece hmem

theorem pyIn_eq_false_iff (sep s : PyStr) (hne : sep ≠ []) :
    pyIn sep s = false ↔ NoOcc sep s := by
  unfold pyIn
  rw [← findSub_eq_none_iff sep hne s]
  cases findSub sep s <;> simp

/-! Claim C10: `create_plan` always returns a non-empty plan, with the
single-step fallback on an LLM error or an empty cleaned response. -/

/-- C10: for every query (i.e. for every outcome of the LLM call and of
`json.loads`), `OrchestratorAgent.create_plan` returns a non-empty list of
steps; when the LLM call raises, or when its output contains no JSON array
and its newline cleanup is empty, the result is exactly the single-step
fallback plan `["RETRIEVE: General information about the query"]`. -/
theorem createPlan_nonempty_with_fallback
    (jsonLoads : PyStr → Option (List PyStr)) (llm : Except PyStr PyStr) :
    createPlan jsonLoads llm ≠ [] ∧
    (∀ e, llm = .error e → createPlan jsonLoads llm = fallbackPlan) ∧
    (∀ t, llm = .ok t → bracketSpan t = none → cleanLines t = [] →
      createPlan jsonLoads llm = fallbackPlan) := by
  have hfb : fallbackPlan ≠ [] := by decide
  refine ⟨?_, ?_, ?_⟩
  · cases llm with
    | error e => exact hfb
    | ok t =>
      simp only [createPlan]
      split
      · split
        · exact hfb
        · split
          · exact hfb
          · next hp => exact hp
      · split
        · exact hfb
        · next hp => exact hp
  · intro e he; subst he; rfl
  · intro t ht hb hc
    subst ht
    simp only [createPlan]
    rw [hb]
    show (if cleanLines t = [] then fallbackPlan else cleanLines t) =
      fallbackPlan
    rw [if_pos hc]

/-- C10 witness: both fallback paths at concrete inputs. -/
theorem createPlan_nonempty_with_fallback_witness :
    createPlan (fun _ => none) (Except.error (str "llm down")) =
      fallbackPlan ∧
    createPlan (fun _ => none) (Except.ok (str " \n ")) = fallbackPlan :=
  ⟨(createPlan_nonempty_with_fallback (fun _ => none)
      (Except.error (str "llm down"))).2.1 (str "llm down") rfl,
   (createPlan_nonempty_with_fallback (fun _ => none)
      (Except.ok (str " \n "))).2.2 (str " \n ") rfl (by decide) (by decide)⟩

/-! Claim C7 (corrected): the fallback of `execute_retrieval` is a single
unfiltered search, but it uses the *overall user query*, not the raw
plan-step text. -/

/-- C7 counterexample: with a malformed LLM response, `execute_retrieval`
falls back to searching the *overall query* (`query=query` in the source),
not the raw plan-step text as the claim states. -/
theorem executeRetrieval_fallback_counterexample :
    executeRetrieval searchFnC7 (Except.error (str "malformed JSON"))
        (str "overall query") (str "RETRIEVE: step text") =
      [⟨str "doc found for the overall query", [], none, str "id-q"⟩] ∧
    executeRetrieval searchFnC7 (Except.error (str "malformed JSON"))
        (str "overall query") (str "RETRIEVE: step text") ≠
      searchFnC7 (str "RETRIEVE: step text") none 5 := by
  constructor <;> decide

/-- C7 amended: when the LLM response is malformed or fails to parse,
`execute_retrieval` degrades to a single unfiltered search on the overall
user query (not the plan-step text); composed with `search_chunks` —
which catches every backend error and returns `[]` — this fallback path
never raises. -/
theorem executeRetrieval_fallback_amended {δ : Type}
    (search_fn : PyStr → Option (List (PyStr × MVal)) → Nat →
      List (SearchResult δ))
    (query_fn : PyStr → Nat → Option WhereClause →
      Except PyStr (List (SearchResult δ)))
    (query step e : PyStr) :
    executeRetrieval search_fn (.error e) query step =
      search_fn query none 5 ∧
    executeRetrieval (fun q f n => searchChunks query_fn q f n)
        (.error e) query step =
      searchChunks query_fn query none 5 :=
  ⟨rfl, rfl⟩

/-! Claim C6 (corrected): an external error is fatal to the insert path
(`process_document_for_storage` re-raises), but `search_chunks` catches
query errors and returns `[]` rather than propagating. -/

/-- C6 counterexample: when the nearest-neighbor query raises,
`search_chunks` returns the empty list — an `ok` value — instead of
propagating the error as the claim states. -/
theorem searchChunks_swallows_error_counterexample :
    searchChunks (δ := Nat) (fun _ _ _ => .error (str "embedding service down"))
        (str "total assets") none 10 = [] ∧
    getEmbedding (0 : Nat) (.error (str "connection refused")) =
      List.replicate 768 0 := by
  constructor <;> rfl

/-- C6 amended: an error raised by the vector-store `add` call inside
`process_document_for_storage` propagates to the caller (the `except`
re-raises), provided the document actually produced sections and chunks;
an error raised by the query call inside `search_chunks` is caught and the
empty list returned; an error in the embedding HTTP call is caught inside
the Ollama client and replaced by a 768-dimensional zero vector, so an
embedding failure alone aborts neither operation. -/
theorem storage_error_boundary {δ ε : Type} (zero : ε) (uuids : Nat → PyStr)
    (doc : ProcessedDoc) (e : PyStr)
    (hsec : extractSectionsWithPages doc.content ≠ [])
    (hchunks : ((extractSectionsWithPages doc.content).map
      (fun sec => chunkSectionContent uuids sec doc.metadata)).flatten ≠ []) :
    processDocumentForStorage uuids (fun _ _ _ => .error e) doc =
      .error e ∧
    (∀ (query_fn : PyStr → Nat → Option WhereClause →
        Except PyStr (List (SearchResult δ)))
      (q : PyStr) (f : Option (List (PyStr × MVal))) (n : Nat) (e2 : PyStr),
      query_fn q n (buildWhere f) = .error e2 →
      searchChunks query_fn q f n = []) ∧
    (∀ e3 : PyStr, getEmbedding zero (.error e3) = List.replicate 768 zero) := by
  refine ⟨?_, ?_, fun _ => rfl⟩
  · unfold processDocumentForStorage
    rw [if_neg hsec, if_neg hchunks]
  · intro query_fn q f n e2 hq
    show (match query_fn q n (buildWhere f) with
      | Except.error _ => []
      | Except.ok rows => rows) = []
    rw [hq]

/-- C6 witness: a one-section document whose insert fails propagates the
error, at concrete inputs. -/
theorem storage_error_boundary_witness :
    (extractSectionsWithPages (str "#Section S\n#Page 1\nhello") ≠ [] ∧
      ((extractSectionsWithPages (str "#Section S\n#Page 1\nhello")).map
        (fun sec => chunkSectionContent (fun _ => []) sec
          ⟨str "t", str "f", none, none, none⟩)).flatten ≠ []) ∧
    processDocumentForStorage (fun _ => [])
        (fun _ _ _ => .error (str "add failed"))
        ⟨str "#Section S\n#Page 1\nhello",
          ⟨str "t", str "f", none, none, none⟩, str "t"⟩ =
      .error (str "add failed") := by
  refine ⟨⟨by decide, by decide⟩, ?_⟩
  exact (storage_error_boundary (δ := Nat) (0 : Nat) (fun _ => [])
    ⟨str "#Section S\n#Page 1\nhello", ⟨str "t", str "f", none, none, none⟩,
      str "t"⟩ (str "add failed") (by decide) (by decide)).1

/-! Claim C4: the retry-without-filters policy of `execute_retrieval`. -/

/-- C4: when the parsed response carries a non-empty filter set and every
filtered search returns zero results, `execute_retrieval` re-issues
exactly the same queries with filters cleared and returns those unfiltered
results, deduplicated — the outcome of an unfiltered search, not the empty
list. -/
theorem executeRetrieval_retry_without_filters {δ : Type}
    (search_fn : PyStr → Option (List (PyStr × MVal)) → Nat →
      List (SearchResult δ))
    (resp : RetrievalResponse) (query step : PyStr)
    (qs : List PyStr) (fs : List (PyStr × MVal))
    (hqs : resp.search_queries = some qs)
    (hfs : resp.filters = some fs) (hfs_ne : fs ≠ [])
    (hempty : ∀ q ∈ qs, search_fn q (some fs) 5 = []) :
    executeRetrieval search_fn (.ok resp) query step =
      dedupByPrefix ((qs.map (fun q => search_fn q none 5)).flatten) := by
  simp only [executeRetrieval]
  rw [hqs, hfs]
  simp only [Option.getD_some]
  have hfirst : ((qs.map (fun q =>
      search_fn q (if fs ≠ [] then some fs else none) 5)).flatten : List (SearchResult δ)) = [] := by
    rw [if_pos hfs_ne]
    rw [List.flatten_eq_nil_iff]
    intro l hl
    rw [List.mem_map] at hl
    obtain ⟨q, hq, rfl⟩ := hl
    exact hempty q hq
  rw [hfirst]
  rw [if_pos ⟨rfl, hfs_ne⟩]

/-- C4 witness: one query whose filtered search is empty but whose
unfiltered search matches a stored document, at concrete inputs. -/
theorem executeRetrieval_retry_without_filters_witness :
    ((⟨some [str "net profit"], some [(str "quarter", .s (str "Q3"))]⟩ :
        RetrievalResponse).search_queries = some [str "net profit"] ∧
      (∀ q ∈ [str "net profit"],
        (fun (_ : PyStr) (f : Option (List (PyStr × MVal))) (_ : Nat) =>
          if f = none then [(⟨str "match", [], none, str "id0"⟩ : SearchResult Nat)]
          else []) q (some [(str "quarter", .s (str "Q3"))]) 5 = [])) ∧
    executeRetrieval
        (fun (_ : PyStr) (f : Option (List (PyStr × MVal))) (_ : Nat) =>
          if f = none then [(⟨str "match", [], none, str "id0"⟩ : SearchResult Nat)]
          else [])
        (.ok ⟨some [str "net profit"], some [(str "quarter", .s (str "Q3"))]⟩)
        (str "q") (str "RETRIEVE: net profit") =
      dedupByPrefix (([str "net profit"].map (fun q =>
        (fun (_ : PyStr) (f : Option (List (PyStr × MVal))) (_ : Nat) =>
          if f = none then [(⟨str "match", [], none, str "id0"⟩ : SearchResult Nat)]
          else []) q none 5)).flatten) := by
  refine ⟨⟨rfl, by decide⟩, ?_⟩
  exact executeRetrieval_retry_without_filters
    (fun (_ : PyStr) (f : Option (List (PyStr × MVal))) (_ : Nat) =>
      if f = none then [(⟨str "match", [], none, str "id0"⟩ : SearchResult Nat)]
      else [])
    ⟨some [str "net profit"], some [(str "quarter", .s (str "Q3"))]⟩
    (str "q") (str "RETRIEVE: net profit")
    [str "net profit"] [(str "quarter", .s (str "Q3"))]
    rfl rfl (by decide) (by decide)

/-! Theorems: the arithmetic evaluator cannot succeed past an identifier
(an unbound variable). -/

theorem parseAtom_no_ident (pAdd : List Tok → Except PyStr (ℚ × List Tok))
    (hAdd : NoIdentConsumed pAdd) : NoIdentConsumed (parseAtom pAdd) := by
  intro toks
  induction toks with
  | nil => intro v rest h; simp [parseAtom] at h
  | cons t ts ih =>
    intro v rest h
    cases t with
    | num w =>
      simp only [parseAtom] at h
      simp only [Except.ok.injEq, Prod.mk.injEq] at h
      obtain ⟨rfl, rfl⟩ := h
      exact ⟨[Tok.num w], rfl, by simp⟩
    | ident n => simp [parseAtom] at h
    | lparen =>
      simp only [parseAtom] at h
      cases hA : pAdd ts with
      | error e => rw [hA] at h; simp at h
      | ok vr =>
        obtain ⟨v2, rest2⟩ := vr
        rw [hA] at h
        cases rest2 with
        | nil => simp at h
        | cons t2 rest3 =>
          cases t2 with
          | rparen =>
            simp only [Except.ok.injEq, Prod.mk.injEq] at h
            obtain ⟨rfl, rfl⟩ := h
            obtain ⟨preA, hpreA, hnoA⟩ := hAdd ts v2 (Tok.rparen :: rest3) hA
            refine ⟨Tok.lparen :: preA ++ [Tok.rparen], ?_, ?_⟩
            · rw [hpreA]; simp
            · intro n hm
              rcases List.mem_cons.mp hm with h1 | hm2
              · cases h1
              rcases List.mem_append.mp hm2 with h2 | h3
              · exact hnoA n h2
              · cases List.mem_singleton.mp h3
          | num w => simp at h
          | ident n => simp at h
          | lparen => simp at h
          | op c => simp at h
    | rparen => simp [parseAtom] at h
    | op c =>
      simp only [parseAtom] at h
      by_cases hc : c = '-'
      · rw [if_pos hc] at h
        cases hA : parseAtom pAdd ts with
        | error e => rw [hA] at h; simp [Except.map] at h
        | ok vr =>
          obtain ⟨v2, rest2⟩ := vr
          rw [hA] at h
          simp only [Except.map, Except.ok.injEq, Prod.mk.injEq] at h
          obtain ⟨rfl, rfl⟩ := h
          obtain ⟨preA, hpreA, hnoA⟩ := ih v2 rest2 hA
          refine ⟨Tok.op c :: preA, by rw [hpreA, List.cons_append], ?_⟩
          intro n
          simp only [List.mem_cons]
          rintro (h1 | h2)
          · cases h1
          · exact hnoA n h2
      · by_cases hc2 : c = '+'
        · rw [if_neg hc, if_pos hc2] at h
          obtain ⟨preA, hpreA, hnoA⟩ := ih v rest h
          refine ⟨Tok.op c :: preA, by rw [hpreA, List.cons_append], ?_⟩
          intro n
          simp only [List.mem_cons]
          rintro (h1 | h2)
          · cases h1
          · exact hnoA n h2
        · rw [if_neg hc, if_neg hc2] at h
          simp at h

theorem okPair_extract (acc v : ℚ) (toks rest : List Tok)
    (h : (Except.ok (acc, toks) : Except PyStr (ℚ × List Tok)) =
      .ok (v, rest)) :
    ∃ pre, toks = pre ++ rest ∧ ∀ n, Tok.ident n ∉ pre := by
  simp only [Except.ok.injEq, Prod.mk.injEq] at h
  obtain ⟨rfl, rfl⟩ := h
  exact ⟨[], rfl, by simp⟩

theorem parseMulDivLoop_no_ident
    (pAdd : List Tok → Except PyStr (ℚ × List Tok))
    (hAdd : NoIdentConsumed pAdd) :
    ∀ (fuel : Nat) (acc : ℚ) (toks : List Tok) (v : ℚ) (rest : List Tok),
      parseMulDivLoop pAdd fuel acc toks = .ok (v, rest) →
      ∃ pre, toks = pre ++ rest ∧ ∀ n, Tok.ident n ∉ pre := by
  intro fuel
  induction fuel with
  | zero => intro acc toks v rest h; simp [parseMulDivLoop] at h
  | succ f ih =>
    intro acc toks v rest h
    cases toks with
    | nil =>
      simp only [parseMulDivLoop, Except.ok.injEq, Prod.mk.injEq] at h
      obtain ⟨rfl, rfl⟩ := h
      exact ⟨[], rfl, by simp⟩
    | cons t ts =>
      cases t with
      | op c =>
        simp only [parseMulDivLoop] at h
        by_cases hc : c = '*' ∨ c = '/'
        · rw [if_pos hc] at h
          cases hA : parseAtom pAdd ts with
          | error e => rw [hA] at h; simp at h
          | ok vr =>
            obtain ⟨v2, rest2⟩ := vr
            rw [hA] at h
            obtain ⟨preA, hpreA, hnoA⟩ :=
              parseAtom_no_ident pAdd hAdd ts v2 rest2 hA
            obtain ⟨preL, hpreL, hnoL⟩ := ih _ rest2 v rest h
            refine ⟨Tok.op c :: preA ++ preL, ?_, ?_⟩
            · rw [hpreA, hpreL]; simp
            · intro n hm
              rcases List.mem_cons.mp hm with h1 | hm2
              · cases h1
              rcases List.mem_append.mp hm2 with h2 | h3
              · exact hnoA n h2
              · exact hnoL n h3
        · rw [if_neg hc] at h
          exact okPair_extract _ _ _ _ h
      | num w =>
        simp only [parseMulDivLoop] at h
        exact okPair_extract _ _ _ _ h
      | ident n =>
        simp only [parseMulDivLoop] at h
        exact okPair_extract _ _ _ _ h
      | lparen =>
        simp only [parseMulDivLoop] at h
        exact okPair_extract _ _ _ _ h
      | rparen =>
        simp only [parseMulDivLoop] at h
        exact okPair_extract _ _ _ _ h

theorem parseMulDiv_no_ident
    (pAdd : List Tok → Except PyStr (ℚ × List Tok))
    (hAdd : NoIdentConsumed pAdd) : NoIdentConsumed (parseMulDiv pAdd) := by
  intro toks v rest h
  simp only [parseMulDiv] at h
  cases hA : parseAtom pAdd toks with
  | error e => rw [hA] at h; simp at h
  | ok vr =>
    obtain ⟨v2, rest2⟩ := vr
    rw [hA] at h
    obtain ⟨preA, hpreA, hnoA⟩ := parseAtom_no_ident pAdd hAdd toks v2 rest2 hA
    obtain ⟨preL, hpreL, hnoL⟩ :=
      parseMulDivLoop_no_ident pAdd hAdd (rest2.length + 1) v2 rest2 v rest h
    refine ⟨preA ++ preL, ?_, ?_⟩
    · rw [hpreA, hpreL]; simp
    · intro n
      simp only [List.mem_append]
      rintro (h1 | h2)
      · exact hnoA n h1
      · exact hnoL n h2

theorem parseAddSubLoop_no_ident
    (pAdd : List Tok → Except PyStr (ℚ × List Tok))
    (hAdd : NoIdentConsumed pAdd) :
    ∀ (fuel : Nat) (acc : ℚ) (toks : List Tok) (v : ℚ) (rest : List Tok),
      parseAddSubLoop pAdd fuel acc toks = .ok (v, rest) →
      ∃ pre, toks = pre ++ rest ∧ ∀ n, Tok.ident n ∉ pre := by
  intro fuel
  induction fuel with
  | zero => intro acc toks v rest h; simp [parseAddSubLoop] at h
  | succ f ih =>
    intro acc toks v rest h
    cases toks with
    | nil =>
      simp only [parseAddSubLoop, Except.ok.injEq, Prod.mk.injEq] at h
      obtain ⟨rfl, rfl⟩ := h
      exact ⟨[], rfl, by simp⟩
    | cons t ts =>
      cases t with
      | op c =>
        simp only [parseAddSubLoop] at h
        by_cases hc : c = '+' ∨ c = '-'
        · rw [if_pos hc] at h
          cases hA : parseMulDiv pAdd ts with
          | error e => rw [hA] at h; simp at h
          | ok vr =>
            obtain ⟨v2, rest2⟩ := vr
            rw [hA] at h
            obtain ⟨preA, hpreA, hnoA⟩ :=
              parseMulDiv_no_ident pAdd hAdd ts v2 rest2 hA
            obtain ⟨preL, hpreL, hnoL⟩ := ih _ rest2 v rest h
            refine ⟨Tok.op c :: preA ++ preL, ?_, ?_⟩
            · rw [hpreA, hpreL]; simp
            · intro n hm
              rcases List.mem_cons.mp hm with h1 | hm2
              · cases h1
              rcases List.mem_append.mp hm2 with h2 | h3
              · exact hnoA n h2
              · exact hnoL n h3
        · rw [if_neg hc] at h
          exact okPair_extract _ _ _ _ h
      | num w =>
        simp only [parseAddSubLoop] at h
        exact okPair_extract _ _ _ _ h
      | ident n =>
        simp only [parseAddSubLoop] at h
        exact okPair_extract _ _ _ _ h
      | lparen =>
        simp only [parseAddSubLoop] at h
        exact okPair_extract _ _ _ _ h
      | rparen =>
        simp only [parseAddSubLoop] at h
        exact okPair_extract _ _ _ _ h

theorem parseAddSub_no_ident :
    ∀ depth : Nat, NoIdentConsumed (parseAddSub depth) := by
  intro depth
  induction depth with
  | zero => intro toks v rest h; simp [parseAddSub] at h
  | succ d ih =>
    intro toks v rest h
    simp only [parseAddSub] at h
    cases hA : parseMulDiv (parseAddSub d) toks with
    | error e => rw [hA] at h; simp at h
    | ok vr =>
      obtain ⟨v2, rest2⟩ := vr
      rw [hA] at h
      obtain ⟨preA, hpreA, hnoA⟩ := parseMulDiv_no_ident _ ih toks v2 rest2 hA
      obtain ⟨preL, hpreL, hnoL⟩ :=
        parseAddSubLoop_no_ident _ ih (rest2.length + 1) v2 rest2 v rest h
      refine ⟨preA ++ preL, ?_, ?_⟩
      · rw [hpreA, hpreL]; simp
      · intro n
        simp only [List.mem_append]
        rintro (h1 | h2)
        · exact hnoA n h1
        · exact hnoL n h2

theorem numexprEvaluate_ok_no_ident (s : PyStr) (v : ℚ)
    (h : numexprEvaluate s = .ok v) : referencedIdents s = [] := by
  unfold numexprEvaluate at h
  cases ht : tokenize s with
  | error e => rw [ht] at h; simp at h
  | ok toks =>
    rw [ht] at h
    have h2 : (match parseAddSub (toks.length + 1) toks with
        | Except.error e => Except.error e
        | Except.ok (w, []) => Except.ok w
        | Except.ok (_, _ :: _) =>
          Except.error (str "unexpected trailing tokens")) =
        (Except.ok v : Except PyStr ℚ) := h
    cases hp : parseAddSub (toks.length + 1) toks with
    | error e => rw [hp] at h2; simp at h2
    | ok vr =>
      obtain ⟨v2, rest2⟩ := vr
      cases rest2 with
      | nil =>
        obtain ⟨pre, hpre, hno⟩ :=
          parseAddSub_no_ident (toks.length + 1) toks v2 [] hp
        rw [List.append_nil] at hpre
        subst hpre
        unfold referencedIdents
        rw [ht]
        rw [List.filterMap_eq_nil_iff]
        intro t htmem
        cases t with
        | ident n => exact absurd htmem (hno n)
        | num w => rfl
        | op c => rfl
        | lparen => rfl
        | rparen => rfl
      | cons t2 r2 =>
        rw [hp] at h2
        exact absurd h2 (by simp)

/-! Claim C5 (corrected): `perform_calculation` never raises and converts
evaluation failures into a degraded result; but because the variable
substitution is a textual substring replacement, a formula referencing an
unbound variable is not *always* detected — overlapping bound names can
accidentally erase it. -/

/-- C5 counterexample: the formula `ab` references the unbound variable
`ab`, yet with bindings `a ↦ 1`, `b ↦ 2` the substring replacements turn
the expression into `12`, and the calculation reports
`execution_success = true` with result 12 instead of the claimed failure
fields. -/
theorem performCalculation_unbound_counterexample :
    referencedIdents (str "ab") = [str "ab"] ∧
    str "ab" ∉ ([(str "a", str "1"), (str "b", str "2")].map Prod.fst) ∧
    performCalculation (.ok ⟨some (str "ab"),
        some [(str "a", str "1"), (str "b", str "2")]⟩) =
      .result ⟨⟨some (str "ab"), some [(str "a", str "1"), (str "b", str "2")]⟩,
        some 12, true, none⟩ :=
  ⟨by decide, by decide, by decide⟩

/-- C5 amended: `perform_calculation` never raises — an error from any
step inside the `try` yields the degraded error dict, and the validation
step converts evaluation failures into a result object with
`execution_success = false`, a non-null `execution_error` and
`validated_result = null`. In particular this happens whenever the
substituted expression still references an identifier (an unbound variable
that no bound-name replacement erased). -/
theorem performCalculation_error_fields (cr : CalcResponse)
    (hid : referencedIdents (substituteFormula (cr.formula_used.getD [])
      (cr.input_values.getD [])) ≠ []) :
    (∃ e, performCalculation (.ok cr) = .result
      { base := cr, validated_result := none, execution_success := false,
        execution_error := some e }) ∧
    (∀ e2, performCalculation (.error e2) = .errorDict e2) := by
  refine ⟨?_, fun _ => rfl⟩
  cases hev : numexprEvaluate (substituteFormula (cr.formula_used.getD [])
      (cr.input_values.getD [])) with
  | error e =>
    refine ⟨e, ?_⟩
    show CalcReturn.result
      (match numexprEvaluate (substituteFormula (cr.formula_used.getD [])
          (cr.input_values.getD [])) with
        | Except.ok w =>
          { base := cr
            validated_result := some w
            execution_success := true
            execution_error := none }
        | Except.error e2 =>
          { base := cr
            validated_result := none
            execution_success := false
            execution_error := some e2 }) =
      CalcReturn.result
        { base := cr
          validated_result := none
          execution_success := false
          execution_error := some e }
    rw [hev]
  | ok v => exact absurd (numexprEvaluate_ok_no_ident _ v hev) hid

/-- C5 witness: formula `x + y` with only `x` bound substitutes to `1 + y`,
whose evaluation fails on the unbound `y`, at concrete inputs. -/
theorem performCalculation_error_fields_witness :
    referencedIdents (substituteFormula
      ((some (str "x + y") : Option PyStr).getD [])
      ((some [(str "x", str "1")] :
        Option (List (PyStr × PyStr))).getD [])) ≠ [] ∧
    (∃ e, performCalculation (.ok ⟨some (str "x + y"),
        some [(str "x", str "1")]⟩) =
      .result ⟨⟨some (str "x + y"), some [(str "x", str "1")]⟩,
        none, false, some e⟩) :=
  ⟨by decide,
   (performCalculation_error_fields
     ⟨some (str "x + y"), some [(str "x", str "1")]⟩ (by decide)).1⟩

/-! Theorems: the `chunk_section_content` loop invariant. -/

theorem mlookup_content_type (u c : PyStr) (sec : FABSection) (dm : DocMeta)
    (i : Nat) (ct : PyStr) :
    mlookup (str "content_type") (createChunkDict u c sec dm i ct).metadata =
      some (.s ct) := rfl

theorem mlookup_chunk_id (u c : PyStr) (sec : FABSection) (dm : DocMeta)
    (i : Nat) (ct : PyStr) :
    mlookup (str "chunk_id") (createChunkDict u c sec dm i ct).metadata =
      some (.n i) := rfl

theorem accInv_flushText (uuids : Nat → PyStr) (sec : FABSection)
    (dm : DocMeta) (P : List PyStr) (acc : ChunkAcc) (h : AccInv P acc)
    (hne : acc.current ≠ []) : AccInv P (flushText uuids sec dm acc) := by
  rcases h.buf with hcur | ⟨c, hcur, hstr, _, hover⟩
  · exact absurd hcur hne
  constructor
  · exact Or.inl rfl
  · intro ch hch
    simp only [flushText, List.mem_append, List.mem_singleton] at hch
    rcases hch with hch | rfl
    · exact h.ok ch hch
    · intro _
      have hc : (createChunkDict (uuids acc.chunkId) (pyStrip acc.current)
          sec dm acc.chunkId (str "text")).content = pyStrip acc.current := rfl
      rw [hc, hcur, pyStrip_buf c hstr]
      by_cases hlen : 1500 < c.length
      · exact Or.inr (hover hlen)
      · exact Or.inl (by omega)
  · simp [flushText, h.count]
  · intro i ch hch
    simp only [flushText] at hch
    rcases Nat.lt_or_ge i acc.chunks.length with hi | hi
    · rw [List.get?_append hi] at hch
      exact h.ids i ch hch
    · rw [List.get?_append_right hi] at hch
      cases hd : i - acc.chunks.length with
      | zero =>
        rw [hd] at hch
        simp only [List.get?] at hch
        have hieq : i = acc.chunks.length := by omega
        cases hch
        subst hieq
        rw [← h.count]
        exact mlookup_chunk_id _ _ _ _ _ _
      | succ k =>
        rw [hd] at hch
        simp at hch

theorem accInv_stepParagraph (uuids : Nat → PyStr) (sec : FABSection)
    (dm : DocMeta) (P : List PyStr) (acc : ChunkAcc) (p : PyStr)
    (h : AccInv P acc) (hstr : Stripped p) (hpne : p ≠ []) (hpP : p ∈ P) :
    AccInv P (stepParagraph uuids sec dm acc p) := by
  by_cases hcond : 1500 < acc.current.length + p.length ∧ acc.current ≠ []
  · have hstep : stepParagraph uuids sec dm acc p =
        { flushText uuids sec dm acc with current := [] ++ p ++ nnSep } := by
      unfold stepParagraph
      rw [if_pos hcond]
      rfl
    rw [hstep]
    have h1 := accInv_flushText uuids sec dm P acc h hcond.2
    exact ⟨Or.inr ⟨p, by simp, hstr, hpne, fun _ => hpP⟩, h1.ok, h1.count,
      h1.ids⟩
  · have hstep : stepParagraph uuids sec dm acc p =
        { acc with current := acc.current ++ p ++ nnSep } := by
      unfold stepParagraph
      rw [if_neg hcond]
      rfl
    rw [hstep]
    refine ⟨?_, h.ok, h.count, h.ids⟩
    rcases h.buf with hcur | ⟨c, hcur, hcstr, hcne, _⟩
    · exact Or.inr ⟨p, by rw [hcur]; simp, hstr, hpne, fun _ => hpP⟩
    · refine Or.inr ⟨acc.current ++ p, rfl, ?_, ?_, ?_⟩
      · rw [hcur]
        exact stripped_append3 c nnSep p hcstr hstr hcne hpne
      · intro hnil
        exact hpne (List.append_eq_nil.mp hnil).2
      · intro hbig
        exfalso
        have hne' : acc.current ≠ [] := by
          rw [hcur]
          exact fun hnil => absurd (List.append_eq_nil.mp hnil).2 (by decide)
        have hle : acc.current.length + p.length ≤ 1500 := by
          by_contra hgt
          exact hcond ⟨by omega, hne'⟩
        rw [List.length_append] at hbig
        omega

theorem accInv_foldParagraphs (uuids : Nat → PyStr) (sec : FABSection)
    (dm : DocMeta) (P : List PyStr) :
    ∀ (ps : List PyStr) (acc : ChunkAcc), AccInv P acc →
    (∀ q ∈ ps, Stripped q ∧ q ≠ [] ∧ q ∈ P) →
    AccInv P (ps.foldl (stepParagraph uuids sec dm) acc) := by
  intro ps
  induction ps with
  | nil => intro acc h _; exact h
  | cons q t ih =>
    intro acc h hq
    rw [List.foldl_cons]
    obtain ⟨h1, h2, h3⟩ := hq q (by simp)
    exact ih _ (accInv_stepParagraph uuids sec dm P acc q h h1 h2 h3)
      (fun r hr => hq r (by simp [hr]))

theorem paragraphs_props (part : PyStr) :
    ∀ q ∈ ((splitOnSub nnSep part).map pyStrip).filter (· ≠ []),
      Stripped q ∧ q ≠ [] ∧ pyIn nnSep q = false := by
  intro q hq
  rw [List.mem_filter] at hq
  obtain ⟨hmem, hne⟩ := hq
  rw [List.mem_map] at hmem
  obtain ⟨piece, hpiece, rfl⟩ := hmem
  refine ⟨stripped_of_pyStrip piece, by simpa using hne, ?_⟩
  rw [pyIn_eq_false_iff _ _ (by decide)]
  exact noOcc_mono nnSep _ piece (by decide)
    (mem_splitOnSub_no_occ nnSep (by decide) part piece hpiece)
    (pyStrip_infix_self piece)

theorem accInv_stepPart (uuids : Nat → PyStr) (sec : FABSection)
    (dm : DocMeta) (P : List PyStr) (acc : ChunkAcc) (part : PyStr)
    (h : AccInv P acc)
    (hP : ∀ q ∈ ((splitOnSub nnSep part).map pyStrip).filter (· ≠ []), q ∈ P) :
    AccInv P (stepPart uuids sec dm acc part) := by
  unfold stepPart
  by_cases h1 : pyStrip part = []
  · rw [if_pos h1]; exact h
  rw [if_neg h1]
  by_cases h2 : isTablePart part = true
  · rw [if_pos h2]
    have hinv1 : AccInv P
        (if pyStrip acc.current ≠ [] then flushText uuids sec dm acc
         else acc) := by
      split
      · apply accInv_flushText uuids sec dm P acc h
        intro hnil
        simp_all [pyStrip]
      · exact h
    set acc1 := if pyStrip acc.current ≠ [] then flushText uuids sec dm acc
      else acc with hacc1
    refine ⟨hinv1.buf, ?_, ?_, ?_⟩
    · intro ch hch
      simp only [List.mem_append, List.mem_singleton] at hch
      rcases hch with hch | rfl
      · exact hinv1.ok ch hch
      · intro hct
        rw [mlookup_content_type] at hct
        exact absurd hct (by decide)
    · simp [hinv1.count]
    · intro i ch hch
      simp only at hch
      rcases Nat.lt_or_ge i acc1.chunks.length with hi | hi
      · rw [List.get?_append hi] at hch
        exact hinv1.ids i ch hch
      · rw [List.get?_append_right hi] at hch
        cases hd : i - acc1.chunks.length with
        | zero =>
          rw [hd] at hch
          simp only [List.get?] at hch
          have hieq : i = acc1.chunks.length := by omega
          cases hch
          subst hieq
          rw [← hinv1.count]
          exact mlookup_chunk_id _ _ _ _ _ _
        | succ k =>
          rw [hd] at hch
          simp at hch
  · rw [if_neg h2]
    apply accInv_foldParagraphs uuids sec dm P _ acc h
    intro q hq
    obtain ⟨hs, hn, _⟩ := paragraphs_props part q hq
    exact ⟨hs, hn, hP q hq⟩

theorem accInv_init (P : List PyStr) : AccInv P ⟨[], [], 0⟩ := by
  refine ⟨Or.inl rfl, ?_, rfl, ?_⟩
  · intro ch hch; simp at hch
  · intro i ch hch; simp at hch

theorem accInv_foldParts (uuids : Nat → PyStr) (sec : FABSection)
    (dm : DocMeta) (P : List PyStr) :
    ∀ (parts : List PyStr) (acc : ChunkAcc), AccInv P acc →
    (∀ part ∈ parts,
      ∀ q ∈ ((splitOnSub nnSep part).map pyStrip).filter (· ≠ []), q ∈ P) →
    AccInv P (parts.foldl (stepPart uuids sec dm) acc) := by
  intro parts
  induction parts with
  | nil => intro acc h _; exact h
  | cons pt t ih =>
    intro acc h hparts
    rw [List.foldl_cons]
    exact ih _ (accInv_stepPart uuids sec dm P acc pt h
        (hparts pt (by simp)))
      (fun r hr => hparts r (by simp [hr]))

theorem chunkSectionContent_ok (uuids : Nat → PyStr) (sec : FABSection)
    (dm : DocMeta) :
    (∀ ch ∈ chunkSectionContent uuids sec dm,
      ChunkOK (sectionParagraphs sec.content) ch) ∧
    (∀ i ch, (chunkSectionContent uuids sec dm).get? i = some ch →
      mlookup (str "chunk_id") ch.metadata = some (.n i)) := by
  have hfold : AccInv (sectionParagraphs sec.content)
      ((tableSplit sec.content).foldl (stepPart uuids sec dm) ⟨[], [], 0⟩) := by
    apply accInv_foldParts uuids sec dm _ _ _ (accInv_init _)
    intro part hpart q hq
    unfold sectionParagraphs
    rw [List.mem_flatten]
    exact ⟨((splitOnSub nnSep part).map pyStrip).filter (· ≠ []),
      List.mem_map.mpr ⟨part, hpart, rfl⟩, hq⟩
  unfold chunkSectionContent
  set acc := (tableSplit sec.content).foldl (stepPart uuids sec dm) ⟨[], [], 0⟩
    with hacc
  by_cases hfin : pyStrip acc.current ≠ []
  · rw [if_pos hfin]
    have hflush := accInv_flushText uuids sec dm _ acc hfold
      (fun hnil => by simp [hnil, pyStrip] at hfin)
    exact ⟨hflush.ok, hflush.ids⟩
  · rw [if_neg hfin]
    exact ⟨hfold.ok, hfold.ids⟩

/-! Theorems: workflow state machine. -/

theorem retrievalNode_proj {ρ κ σ ν : Type} (o : Oracles ρ κ σ ν)
    (s : WState ρ κ σ ν) :
    (retrievalNode o s).plan = s.plan ∧
    (retrievalNode o s).current_step = s.current_step ∧
    (retrievalNode o s).context.length = s.context.length + 1 := by
  refine ⟨rfl, rfl, ?_⟩
  simp [retrievalNode]

theorem calculationNode_proj {ρ κ σ ν : Type} (o : Oracles ρ κ σ ν)
    (s : WState ρ κ σ ν) :
    (calculationNode o s).plan = s.plan ∧
    (calculationNode o s).current_step = s.current_step ∧
    (calculationNode o s).context.length = s.context.length + 1 := by
  refine ⟨rfl, rfl, ?_⟩
  simp [calculationNode]

theorem orchestratorNode_else {ρ κ σ ν : Type} (o : Oracles ρ κ σ ν)
    (s : WState ρ κ σ ν) (h : s.plan ≠ []) :
    orchestratorNode o s = { s with current_step := s.current_step + 1 } := by
  unfold orchestratorNode
  rw [if_neg h]

theorem shouldContinue_nonsynth {ρ κ σ ν : Type} (s : WState ρ κ σ ν)
    (hlt : s.current_step < s.plan.length)
    (hplan : ∀ st ∈ s.plan, isSynthStep st = false) :
    shouldContinue s = Node.retrieval ∨ shouldContinue s = Node.calculation := by
  unfold shouldContinue
  rw [if_neg (by omega)]
  have hmem : s.plan.getD s.current_step [] ∈ s.plan := by
    rw [List.getD_eq_getElem?_getD, List.getElem?_eq_getElem hlt]
    exact List.getElem_mem hlt
  have hsyn : ((str "SYNTHESIZE").isPrefixOf
      (pyUpper (s.plan.getD s.current_step []))) = false :=
    hplan _ hmem
  rw [if_neg (by rw [hsyn]; exact Bool.false_ne_true)]
  by_cases hc : ((str "CALCULATE").isPrefixOf
      (pyUpper (s.plan.getD s.current_step []))) = true
  · rw [if_pos hc]
    exact Or.inr rfl
  · rw [if_neg hc]
    exact Or.inl rfl

theorem stepOrch_eq {ρ κ σ ν : Type} (o : Oracles ρ κ σ ν)
    (s : WState ρ κ σ ν) :
    stepWorkflow o (Node.orchestrator, s) =
      (shouldContinue (orchestratorNode o s), orchestratorNode o s) := rfl

theorem wfTrace_zero {ρ κ σ ν : Type} (o : Oracles ρ κ σ ν) (q : PyStr) :
    WfTrace o q 0 := by
  refine ⟨rfl, ?_, ?_, ?_, ?_⟩ <;>
    simp [runWorkflow, Function.iterate_one, stepWorkflow, orchestratorNode,
      initState]

theorem wfTrace_succ {ρ κ σ ν : Type} (o : Oracles ρ κ σ ν) (q : PyStr)
    (hplan : ∀ st ∈ o.create_plan q, isSynthStep st = false)
    (i : Nat) (hi : i < (o.create_plan q).length) (ht : WfTrace o q i) :
    WfTrace o q (i + 1) := by
  obtain ⟨_, hp1, hc1, hl1, hn1⟩ := ht
  set r1 := runWorkflow o q (2 * i + 1) with hr1def
  have hr1 : r1 = (shouldContinue r1.2, r1.2) := by
    rw [← hn1]
  have hroute := shouldContinue_nonsynth r1.2 (by rw [hc1, hp1]; exact hi)
    (by rw [hp1]; exact hplan)
  have hstep2 : runWorkflow o q (2 * i + 2) = stepWorkflow o r1 := by
    rw [hr1def]
    show (stepWorkflow o)^[2 * i + 1 + 1] (Node.orchestrator, initState q) =
      stepWorkflow o ((stepWorkflow o)^[2 * i + 1]
        (Node.orchestrator, initState q))
    rw [Function.iterate_succ_apply']
  have hs2 : ∃ s2 : WState ρ κ σ ν,
      runWorkflow o q (2 * i + 2) = (afterExecRoute s2, s2) ∧
      s2.plan = o.create_plan q ∧ s2.current_step = i ∧
      s2.context.length = i + 1 := by
    rcases hroute with hre | hca
    · refine ⟨retrievalNode o r1.2, ?_, ?_, ?_, ?_⟩
      · rw [hstep2, hr1, hre]
        rfl
      · rw [(retrievalNode_proj o r1.2).1, hp1]
      · rw [(retrievalNode_proj o r1.2).2.1, hc1]
      · rw [(retrievalNode_proj o r1.2).2.2, hl1]
    · refine ⟨calculationNode o r1.2, ?_, ?_, ?_, ?_⟩
      · rw [hstep2, hr1, hca]
        rfl
      · rw [(calculationNode_proj o r1.2).1, hp1]
      · rw [(calculationNode_proj o r1.2).2.1, hc1]
      · rw [(calculationNode_proj o r1.2).2.2, hl1]
  obtain ⟨s2, hrun2, hp2, hc2, hl2⟩ := hs2
  have hroute2 : afterExecRoute s2 = Node.orchestrator := by
    unfold afterExecRoute
    rw [if_neg (by rw [hp2, hc2]; omega)]
  have hstep3 : runWorkflow o q (2 * i + 3) =
      stepWorkflow o (runWorkflow o q (2 * i + 2)) := by
    show (stepWorkflow o)^[2 * i + 2 + 1] (Node.orchestrator, initState q) =
      stepWorkflow o ((stepWorkflow o)^[2 * i + 2]
        (Node.orchestrator, initState q))
    rw [Function.iterate_succ_apply']
  have hpne : s2.plan ≠ [] := by
    rw [hp2]
    intro hnil
    rw [hnil] at hi
    simp at hi
  have horch := orchestratorNode_else o s2 hpne
  have hrun3 : runWorkflow o q (2 * i + 3) =
      (shouldContinue { s2 with current_step := s2.current_step + 1 },
        { s2 with current_step := s2.current_step + 1 }) := by
    rw [hstep3, hrun2, hroute2, stepOrch_eq, horch]
  have h2e : 2 * (i + 1) = 2 * i + 2 := by omega
  have h2o : 2 * (i + 1) + 1 = 2 * i + 3 := by omega
  refine ⟨?_, ?_, ?_, ?_, ?_⟩
  · rw [h2e, hrun2, hroute2]
  · rw [h2o, hrun3]
    exact hp2
  · rw [h2o, hrun3]
    show s2.current_step + 1 = i + 1
    rw [hc2]
  · rw [h2o, hrun3]
    exact hl2
  · rw [h2o, hrun3]

theorem wfTrace_all {ρ κ σ ν : Type} (o : Oracles ρ κ σ ν) (q : PyStr)
    (hplan : ∀ st ∈ o.create_plan q, isSynthStep st = false) :
    ∀ i, i ≤ (o.create_plan q).length → WfTrace o q i := by
  intro i
  induction i with
  | zero => intro _; exact wfTrace_zero o q
  | succ j ih =>
    intro hj
    exact wfTrace_succ o q hplan j (by omega) (ih (by omega))

/-! Claim C1: termination and step accounting of the workflow for plans
without a SYNTHESIZE step. -/

/-- C1: for a plan of length `N` containing no step whose upper-cased text
starts with `SYNTHESIZE`, the workflow reaches `finish` after exactly
`2*N+1` graph transitions and not before — a plan-creating orchestrator
visit plus, per step, one execution node and one orchestrator re-entry
(`N+1` orchestrator visits in total, entered at transitions
`0, 2, ..., 2N`); `current_step` after the `i`-th orchestrator processing
is `i`, so it strictly increases `0, 1, ..., N`; and the context holds
exactly `N` items at termination. -/
theorem workflow_termination {ρ κ σ ν : Type} (o : Oracles ρ κ σ ν)
    (q : PyStr)
    (hplan : ∀ st ∈ o.create_plan q, isSynthStep st = false) :
    (runWorkflow o q (2 * (o.create_plan q).length + 1)).1 = Node.finish ∧
    (runWorkflow o q (2 * (o.create_plan q).length + 1)).2.context.length =
      (o.create_plan q).length ∧
    (∀ m, m < 2 * (o.create_plan q).length + 1 →
      (runWorkflow o q m).1 ≠ Node.finish) ∧
    (∀ i, i ≤ (o.create_plan q).length →
      (runWorkflow o q (2 * i)).1 = Node.orchestrator ∧
      (runWorkflow o q (2 * i + 1)).2.current_step = i) := by
  set N := (o.create_plan q).length with hN
  have htr := wfTrace_all o q hplan
  obtain ⟨h0, hpN, hcN, hlN, hnN⟩ := htr N (by omega)
  have hfin : (runWorkflow o q (2 * N + 1)).1 = Node.finish := by
    rw [hnN]
    unfold shouldContinue
    rw [if_pos (by rw [hpN, hcN])]
  refine ⟨hfin, hlN, ?_, ?_⟩
  · intro m hm
    obtain ⟨i, hi⟩ : ∃ i, m = 2 * i ∨ m = 2 * i + 1 := ⟨m / 2, by omega⟩
    rcases hi with rfl | rfl
    · have hiN : i ≤ N := by omega
      obtain ⟨he, _, _, _, _⟩ := htr i hiN
      rw [he]
      exact fun hcon => Node.noConfusion hcon
    · have hiN : i < N := by omega
      obtain ⟨_, hpi, hci, _, hni⟩ := htr i (by omega)
      have hroute := shouldContinue_nonsynth (runWorkflow o q (2 * i + 1)).2
        (by rw [hci, hpi]; exact hiN) (by rw [hpi]; exact hplan)
      rw [hni]
      rcases hroute with hre | hca
      · rw [hre]
        exact fun hcon => Node.noConfusion hcon
      · rw [hca]
        exact fun hcon => Node.noConfusion hcon
  · intro i hi
    obtain ⟨he, _, hci, _, _⟩ := htr i hi
    exact ⟨he, hci⟩

/-- C1 witness: a concrete one-step plan without SYNTHESIZE reaches finish
in 3 transitions with one context item. -/
theorem workflow_termination_witness :
    (∀ st ∈ oraclesW.create_plan (str "q"), isSynthStep st = false) ∧
    (runWorkflow oraclesW (str "q")
      (2 * (oraclesW.create_plan (str "q")).length + 1)).1 = Node.finish ∧
    (runWorkflow oraclesW (str "q")
      (2 * (oraclesW.create_plan (str "q")).length + 1)).2.context.length =
      (oraclesW.create_plan (str "q")).length :=
  ⟨by decide,
   (workflow_termination oraclesW (str "q") (by decide)).1,
   (workflow_termination oraclesW (str "q") (by decide)).2.1⟩

/-! Claim C8: the context list is append-only with position-indexed
timestamps. -/

theorem ctx_append_ok {ρ κ σ ν : Type} (ctx : List (CtxItem ρ κ σ ν))
    (item : CtxItem ρ κ σ ν) (hts : CtxItem.timestamp item = ctx.length) :
    ctx <+: ctx ++ [item] ∧
    (ctx ++ [item]).length = ctx.length + 1 ∧
    (∀ i it, (ctx ++ [item]).get? i = some it → ctx.length ≤ i →
      CtxItem.timestamp it = i) ∧
    (TimestampsOK ctx → TimestampsOK (ctx ++ [item])) := by
  have hnew : ∀ i it, (ctx ++ [item]).get? i = some it → ctx.length ≤ i →
      CtxItem.timestamp it = i := by
    intro i it hget hge
    rw [List.get?_append_right hge] at hget
    cases hd : i - ctx.length with
    | zero =>
      rw [hd] at hget
      simp only [List.get?] at hget
      cases hget
      omega
    | succ k =>
      rw [hd] at hget
      simp at hget
  refine ⟨List.prefix_append ctx [item], by simp, hnew, ?_⟩
  intro hold i it hget
  rcases Nat.lt_or_ge i ctx.length with hlt | hge
  · rw [List.get?_append hlt] at hget
    exact hold i it hget
  · exact hnew i it hget hge

/-- C8: each execution node (retrieval, calculation, synthesis) only
appends to the context: the previous context is a prefix of the new one,
exactly one item is added, the appended item's timestamp equals its
position at append time, and position-indexed timestamps
(`0, 1, 2, ...`, hence strictly increasing) are preserved. -/
theorem context_append_only {ρ κ σ ν : Type} (o : Oracles ρ κ σ ν)
    (n : Node) (s : WState ρ κ σ ν)
    (hn : n = Node.retrieval ∨ n = Node.calculation ∨ n = Node.synthesis) :
    s.context <+: (stepWorkflow o (n, s)).2.context ∧
    (stepWorkflow o (n, s)).2.context.length = s.context.length + 1 ∧
    (∀ i item, (stepWorkflow o (n, s)).2.context.get? i = some item →
      s.context.length ≤ i → CtxItem.timestamp item = i) ∧
    (TimestampsOK s.context →
      TimestampsOK (stepWorkflow o (n, s)).2.context) := by
  rcases hn with rfl | rfl | rfl
  · exact ctx_append_ok s.context _ rfl
  · exact ctx_append_ok s.context _ rfl
  · exact ctx_append_ok s.context _ rfl

/-- C8 witness: the retrieval node at the initial state, on concrete
oracles. -/
theorem context_append_only_witness :
    (Node.retrieval = Node.retrieval ∨ Node.retrieval = Node.calculation ∨
      Node.retrieval = Node.synthesis) ∧
    ((initState (str "q") : WState Nat Nat Nat Nat).context <+:
      (stepWorkflow oraclesW (Node.retrieval, initState (str "q"))).2.context ∧
    (stepWorkflow oraclesW
        (Node.retrieval, initState (str "q"))).2.context.length =
      (initState (str "q") : WState Nat Nat Nat Nat).context.length + 1 ∧
    (∀ i item, (stepWorkflow oraclesW
        (Node.retrieval, initState (str "q"))).2.context.get? i = some item →
      (initState (str "q") : WState Nat Nat Nat Nat).context.length ≤ i →
      CtxItem.timestamp item = i) ∧
    (TimestampsOK (initState (str "q") : WState Nat Nat Nat Nat).context →
      TimestampsOK (stepWorkflow oraclesW
        (Node.retrieval, initState (str "q"))).2.context)) :=
  ⟨Or.inl rfl,
   context_append_only oraclesW Node.retrieval (initState (str "q"))
     (Or.inl rfl)⟩

/-! Claim C2: the chunk size bound with the oversized-paragraph
exception. -/

theorem mem_sectionParagraphs_noNN (content q : PyStr)
    (h : q ∈ sectionParagraphs content) : pyIn nnSep q = false := by
  unfold sectionParagraphs at h
  rw [List.mem_flatten] at h
  obtain ⟨l, hl, hq⟩ := h
  rw [List.mem_map] at hl
  obtain ⟨part, _, rfl⟩ := hl
  exact (paragraphs_props part q hq).2.2

/-- C2: every `text` chunk produced by `chunk_section_content` has content
of at most 1500 characters, except when the chunk is a single paragraph of
the section emitted whole (its content contains no paragraph boundary
`"\n\n"` and equals one of the section's paragraphs verbatim — neither
split nor truncated) whose own length exceeds the threshold. -/
theorem chunk_size_bound (uuids : Nat → PyStr) (sec : FABSection)
    (dm : DocMeta) :
    ∀ ch ∈ chunkSectionContent uuids sec dm,
      mlookup (str "content_type") ch.metadata = some (.s (str "text")) →
      ch.content.length ≤ 1500 ∨
        (1500 < ch.content.length ∧ pyIn nnSep ch.content = false ∧
          ch.content ∈ sectionParagraphs sec.content) := by
  intro ch hch hct
  rcases le_or_lt (ch.content.length) 1500 with hle | hgt
  · exact Or.inl hle
  rcases (chunkSectionContent_ok uuids sec dm).1 ch hch hct with h | h
  · omega
  · exact Or.inr ⟨hgt, mem_sectionParagraphs_noNN sec.content ch.content h, h⟩

/-- C2 witness: the single text chunk of a small section, at concrete
inputs. -/
theorem chunk_size_bound_witness :
    (chunkW ∈ chunkSectionContent uuidsW secW dmW ∧
      mlookup (str "content_type") chunkW.metadata =
        some (.s (str "text"))) ∧
    (chunkW.content.length ≤ 1500 ∨
      (1500 < chunkW.content.length ∧ pyIn nnSep chunkW.content = false ∧
        chunkW.content ∈ sectionParagraphs secW.content)) :=
  ⟨⟨by decide, by decide⟩,
   chunk_size_bound uuidsW secW dmW chunkW (by decide) (by decide)⟩

/-! Claim C9 (corrected): the counter key is `chunk_id`, not
`chunk_index`. -/

/-- C9 counterexample: a chunk produced by the pipeline has no metadata
field named `chunk_index`; the 0-based per-section counter is stored under
`chunk_id`. -/
theorem chunk_index_field_counterexample :
    chunkW ∈ chunkSectionContent uuidsW secW dmW ∧
    mlookup (str "chunk_index") chunkW.metadata = none ∧
    mlookup (str "chunk_id") chunkW.metadata = some (.n 0) :=
  ⟨by decide, by decide, by decide⟩

/-- C9 amended: every chunk carries a metadata field named `chunk_id` (not
`chunk_index`) holding a 0-based counter equal to the chunk's position in
its section's chunk sequence — it thus increments by one within a section
and restarts at 0 for each section (uniqueness coming from the chunk's
`id`, not this counter). -/
theorem chunk_id_positional (uuids : Nat → PyStr) (sec : FABSection)
    (dm : DocMeta) (i : Nat) (ch : Chunk)
    (h : (chunkSectionContent uuids sec dm).get? i = some ch) :
    mlookup (str "chunk_id") ch.metadata = some (.n i) :=
  (chunkSectionContent_ok uuids sec dm).2 i ch h

/-- C9 witness: position 0 of the concrete section's chunk list. -/
theorem chunk_id_positional_witness :
    (chunkSectionContent uuidsW secW dmW).get? 0 = some chunkW ∧
    mlookup (str "chunk_id") chunkW.metadata = some (.n 0) :=
  ⟨by decide, chunk_id_positional uuidsW secW dmW 0 chunkW (by decide)⟩

/-! Claim C3 (corrected): the spec's example input yields one text chunk,
not a text chunk plus a table chunk. -/

/-- C3 counterexample: on the example raw text the extraction yields the
Balance Sheet section at page 3, but chunking yields exactly ONE chunk,
of content type `text` — no table chunk, contradicting the claimed pair of
chunks. The grid is not matched by the table pattern because its separator
row `|-|-|` contains no `---` run. -/
theorem example_scenario_counterexample :
    extractSectionsWithPages c3input = [c3section] ∧
    (chunkSectionContent uuidsW c3section dmW).length = 1 ∧
    (chunkSectionContent uuidsW c3section dmW).map
      (fun ch => mlookup (str "content_type") ch.metadata) =
      [some (.s (str "text"))] := by
  refine ⟨by decide, by decide, by decide⟩

/-- C3 amended: section extraction on the example input yields exactly the
`Balance Sheet` section with page 3, and chunking that section yields
exactly one chunk: a `text` chunk whose content contains both the Total
Assets sentence and the pipe-delimited grid, with `page_number = 3`. -/
theorem example_scenario_amended (uuids : Nat → PyStr) (dm : DocMeta) :
    extractSectionsWithPages c3input = [c3section] ∧
    (extractSectionsWithPages c3input).map (fun sec =>
      (chunkSectionContent uuids sec dm).map (fun ch =>
        (ch.content, mlookup (str "page_number") ch.metadata,
          mlookup (str "content_type") ch.metadata))) =
      [[(c3chunkContent, some (.n 3), some (.s (str "text")))]] := by
  have hsec : extractSectionsWithPages c3input = [c3section] := by decide
  refine ⟨hsec, ?_⟩
  rw [hsec]
  simp only [List.map]
  rfl

end FAB
